import Mathlib

/-!
# co-pilot `pkg/file`: the merge engine

A shallow embedding of `pkg/file/file.go` (line-oriented file I/O, the key-value
and plain-text merges, and the copy-or-merge orchestrator) together with the
properties its specification states about it.

A Go string is a finite sequence of bytes. It is modelled as a list of
characters, one character for each byte (for text in UTF-8 cut at ASCII
separators, one for each code point: the operations used here give the same
pieces either way). `strings.Split`, `strings.Join`, `strings.Contains`,
`strings.HasSuffix` and `==` are then operations on lists.
-/

namespace CoPilot

/-- A Go `string`. -/
abbrev Str := List Char

/-- A file path: a Go `string` passed by value. -/
abbrev Path := Str

/-! ## The `strings` package -/

/-- `strings.Contains(s, substr)`: `substr` occurs somewhere within `s`. -/
def Contains : Str → Str → Bool
  | [], substr => substr.isEmpty
  | c :: s, substr => substr.isPrefixOf (c :: s) || Contains s substr

/-- `strings.HasSuffix(s, suffix)`. -/
def HasSuffix (s suffix : Str) : Bool :=
  suffix.isSuffixOf s

/-- `strings.Join(elems, sep)`: the elements with `sep` between neighbours; the
empty string for no element. -/
def Join : List Str → Str → Str
  | [], _ => []
  | [a], _ => a
  | a :: b :: rest, sep => a ++ sep ++ Join (b :: rest) sep

/-- The loop of `genSplit` for a non-empty separator, one character of the input
at a time: `skip` counts the characters of a matched separator still to pass
over, `cur` holds the current piece reversed. The leftmost occurrence is cut
first and occurrences do not overlap. -/
def splitAux (sep : Str) : Nat → Str → Str → List Str
  | _, cur, [] => [cur.reverse]
  | skip + 1, cur, _ :: s => splitAux sep skip cur s
  | 0, cur, c :: s =>
    if sep.isPrefixOf (c :: s) then cur.reverse :: splitAux sep (sep.length - 1) [] s
    else splitAux sep 0 (c :: cur) s

/-- `strings.Split(s, sep)`. With an empty separator the string is exploded into
its characters, and the empty string then gives the empty slice; with a non-empty
separator the result has one more element than there are occurrences. -/
def Split (s sep : Str) : List Str :=
  if sep = [] then s.map (fun c => [c]) else splitAux sep 0 [] s

/-! ## Results of a call -/

/-- The failures of the operating system the model tells apart. -/
inductive IOError
  | notExist
  | exist
  | notDir
  | isDir
  | denied
  deriving DecidableEq, Repr

/-- How a call that returns a Go `error` ends: `nil`, a non-nil error, or a
run-time panic (an index out of range) that unwinds the call. -/
inductive Res
  | nil
  | err (e : IOError)
  | panic
  deriving DecidableEq, Repr

/-! ## The file system

Files are identified by the spelling of their path. A failed operating-system
call is refused when the file is opened and leaves the file system as it was. -/

/-- A regular file: its bytes and its permission bits. -/
structure File where
  content : Str
  mode : Nat
  deriving DecidableEq, Repr

/-- An entry of the file system. -/
inductive Node
  | file (f : File)
  | dir (mode : Nat)
  deriving DecidableEq, Repr

/-- The operating-system calls that the environment may refuse. -/
inductive Op
  | stat
  | read
  | write
  | mkdir
  deriving DecidableEq, Repr

/-- The state of the file system: the entry at each path, the calls the
environment refuses at each path (permissions), and the process's umask. -/
structure FS where
  node : Path → Option Node
  fault : Op → Path → Bool
  umask : Nat

/-- The file system with the entry at `p` replaced by `n`. -/
def FS.set (fs : FS) (p : Path) (n : Node) : FS :=
  { fs with node := fun q => if q = p then some n else fs.node q }

/-- `os.PathSeparator`. -/
def pathSeparator : Str := ['/']

/-- The line terminator of `OpenLines` and `Overwrite`. -/
def newline : Str := ['\n']

/-- Permission bits `perm` with the bits of the umask cleared. -/
def applyUmask (perm umask : Nat) : Nat :=
  Nat.land (perm % 512) (Nat.xor 511 (umask % 512))

/-- The directory a path's last element lives in, as `os.MkdirAll` finds it:
trailing separators are passed over, then the last element; `none` when what is
left is the root or the working directory. -/
def parentOf (path : Path) : Option Path :=
  let r := (path.reverse.dropWhile (fun c => c == '/')).dropWhile (fun c => c != '/')
  if 1 < r.length then some (r.drop 1).reverse else none

/-- Whether the directory that is to hold `path` is there. -/
def parentPresent (fs : FS) (path : Path) : Bool :=
  match parentOf path with
  | none => true
  | some d =>
    match fs.node d with
    | some (Node.dir _) => true
    | _ => false

/-- `os.Stat(name)`. The model looks at the entry of `name` alone: for a path that
runs through a regular file it answers that nothing is there, where the operating
system answers that a part of the path is no directory. -/
def Stat (fs : FS) (name : Path) : Option Node × Res :=
  if name = [] then (none, Res.err IOError.notExist)
  else if fs.fault Op.stat name then (none, Res.err IOError.denied)
  else
    match fs.node name with
    | none => (none, Res.err IOError.notExist)
    | some n => (some n, Res.nil)

/-- `ioutil.ReadFile(name)`, also `os.Open` followed by `ioutil.ReadAll`: the
bytes of a regular file that may be read. -/
def readFile (fs : FS) (name : Path) : Except IOError Str :=
  if name = [] then Except.error IOError.notExist
  else
    match fs.node name with
    | none => Except.error IOError.notExist
    | some (Node.dir _) => Except.error IOError.isDir
    | some (Node.file f) =>
      if fs.fault Op.read name then Except.error IOError.denied else Except.ok f.content

/-- `ioutil.WriteFile(name, data, perm)`: an existing file is truncated and keeps
its mode; a missing one is created with `perm` less the umask, in a directory
that exists. The model takes a name that ends in the separator for a file name
like any other, where the operating system refuses it. -/
def writeFile (name : Path) (data : Str) (perm : Nat) (fs : FS) : Res × FS :=
  if name = [] then (Res.err IOError.notExist, fs)
  else
    match fs.node name with
    | some (Node.dir _) => (Res.err IOError.isDir, fs)
    | some (Node.file f) =>
      if fs.fault Op.write name then (Res.err IOError.denied, fs)
      else (Res.nil, fs.set name (Node.file { content := data, mode := f.mode }))
    | none =>
      if fs.fault Op.write name then (Res.err IOError.denied, fs)
      else if parentPresent fs name then
        (Res.nil, fs.set name (Node.file { content := data, mode := applyUmask perm fs.umask }))
      else (Res.err IOError.notExist, fs)

/-- `os.Mkdir(name, perm)`. -/
def Mkdir (name : Path) (perm : Nat) (fs : FS) : Res × FS :=
  if name = [] then (Res.err IOError.notExist, fs)
  else
    match fs.node name with
    | some _ => (Res.err IOError.exist, fs)
    | none =>
      if fs.fault Op.mkdir name then (Res.err IOError.denied, fs)
      else if parentPresent fs name then
        (Res.nil, fs.set name (Node.dir (applyUmask perm fs.umask)))
      else (Res.err IOError.notExist, fs)

/-- The recursion of `os.MkdirAll(path, perm)`: nothing to do for a directory, an
error for a file, otherwise the parent first and then `path` itself. Every call
is on a shorter path, so `fuel` above the length of the path is never used up. -/
def mkdirAllAux : Nat → Path → Nat → FS → Res × FS
  | 0, _, _, fs => (Res.err IOError.denied, fs)
  | fuel + 1, path, perm, fs =>
    match Stat fs path with
    | (some (Node.dir _), Res.nil) => (Res.nil, fs)
    | (some (Node.file _), Res.nil) => (Res.err IOError.notDir, fs)
    | _ =>
      let made : Res × FS :=
        match parentOf path with
        | some d => mkdirAllAux fuel d perm fs
        | none => (Res.nil, fs)
      match made with
      | (Res.nil, fs1) =>
        match Mkdir path perm fs1 with
        | (Res.nil, fs2) => (Res.nil, fs2)
        | (e, fs2) =>
          match Stat fs2 path with
          | (some (Node.dir _), Res.nil) => (Res.nil, fs2)
          | _ => (e, fs2)
      | (e, fs1) => (e, fs1)

/-- `os.MkdirAll(path, perm)`. -/
def MkdirAll (path : Path) (perm : Nat) (fs : FS) : Res × FS :=
  mkdirAllAux (path.length + 1) path perm fs

/-! ## `pkg/file/file.go`

Calls to the logger write no file and are left out. -/

/-- `Exists(filename)`: false only when `os.Stat` reports that nothing is there. -/
def Exists (fs : FS) (filename : Path) : Bool :=
  match (Stat fs filename).2 with
  | Res.err IOError.notExist => false
  | _ => true

/-- `Open(filePath)`: the bytes of the file, or no bytes and the error. -/
def Open (fs : FS) (filePath : Path) : Str × Res :=
  match readFile fs filePath with
  | Except.error e => ([], Res.err e)
  | Except.ok byteValue => (byteValue, Res.nil)

/-- `OpenLines(filePath)`: the file split on the line terminator; when `Open`
fails, no line and a `nil` error. -/
def OpenLines (fs : FS) (filePath : Path) : List Str × Res :=
  match Open fs filePath with
  | (b, Res.nil) => (Split b newline, Res.nil)
  | _ => ([], Res.nil)

/-- `Overwrite(lines, filePath)`. -/
def Overwrite (lines : List Str) (filePath : Path) (fs : FS) : Res × FS :=
  writeFile filePath (Join lines newline) 420 fs

/-- `CreateDirectory(path)`: when `os.MkdirAll` fails it is the error of
`os.Stat` that is returned. -/
def CreateDirectory (path : Path) (fs : FS) : Res × FS :=
  match (Stat fs path).2 with
  | Res.err IOError.notExist =>
    match MkdirAll path 493 fs with
    | (Res.nil, fs1) => (Res.nil, fs1)
    | (_, fs1) => (Res.err IOError.notExist, fs1)
  | _ => (Res.nil, fs)

/-- The permission bits `fileInfo.Mode()` reports. -/
def Node.mode : Node → Nat
  | Node.file f => f.mode
  | Node.dir m => m

/-- `copyFile(sourceFile, destinationFile)`. -/
def copyFile (sourceFile destinationFile : Path) (fs : FS) : Res × FS :=
  match readFile fs sourceFile with
  | Except.error e => (Res.err e, fs)
  | Except.ok input =>
    let destinationParts := Split destinationFile pathSeparator
    let destinationDir := Join destinationParts.dropLast pathSeparator
    let made : Res × FS :=
      if !Exists fs destinationDir then CreateDirectory destinationDir fs else (Res.nil, fs)
    match made with
    | (Res.nil, fs1) =>
      match Stat fs1 sourceFile with
      | (some fileInfo, Res.nil) => writeFile destinationFile input fileInfo.mode fs1
      | (_, e) => (e, fs1)
    | (e, fs1) => (e, fs1)

/-- The inner loop of `MergeTextFiles` (lines 275-279). -/
def textHasLine (fromLine : Str) : List Str → Bool → Bool
  | [], hasLine => hasLine
  | toLine :: rest, hasLine =>
    textHasLine fromLine rest (if fromLine = toLine then true else hasLine)

/-- The outer loop of `MergeTextFiles` (lines 272-284): the lines queued for
appending. -/
def textNewLines (toLines : List Str) : List Str → List Str → List Str
  | [], newLines => newLines
  | fromLine :: rest, newLines =>
    if !textHasLine fromLine toLines false then
      textNewLines toLines rest (newLines ++ [fromLine])
    else textNewLines toLines rest newLines

/-- The line sequence `MergeTextFiles` hands to `Overwrite` (lines 272-286). -/
def mergeTextLines (fromLines toLines : List Str) : List Str :=
  toLines ++ textNewLines toLines fromLines []

/-- `MergeTextFiles(fromFile, toFile)`. -/
def MergeTextFiles (fromFile toFile : Path) (fs : FS) : Res × FS :=
  match OpenLines fs fromFile with
  | (fromLines, Res.nil) =>
    match OpenLines fs toFile with
    | (toLines, Res.nil) => Overwrite (mergeTextLines fromLines toLines) toFile fs
    | (_, e) => (e, fs)
  | (_, e) => (e, fs)

/-- The inner loop of `MergeKeyValFile` (lines 239-249); `none` when `toParts[0]`
is out of range. -/
def kvHasLine (separator fromKey : Str) : List Str → Bool → Option Bool
  | [], hasLine => some hasLine
  | toLine :: rest, hasLine =>
    if toLine == [] && !Contains toLine separator then
      kvHasLine separator fromKey rest hasLine
    else
      match (Split toLine separator)[0]? with
      | none => none
      | some toKey =>
        kvHasLine separator fromKey rest (if fromKey = toKey then true else hasLine)

/-- The outer loop of `MergeKeyValFile` (lines 229-254): the lines queued for
appending; `none` when an index is out of range. -/
def kvNewLines (separator : Str) (toLines : List Str) : List Str → List Str → Option (List Str)
  | [], newLines => some newLines
  | fromLine :: rest, newLines =>
    if fromLine == [] || !Contains fromLine separator then
      kvNewLines separator toLines rest newLines
    else
      match (Split fromLine separator)[0]? with
      | none => none
      | some fromKey =>
        match kvHasLine separator fromKey toLines false with
        | none => none
        | some hasLine =>
          if !hasLine then kvNewLines separator toLines rest (newLines ++ [fromLine])
          else kvNewLines separator toLines rest newLines

/-- The line sequence `MergeKeyValFile` hands to `Overwrite` (lines 229-256);
`none` when the loop panics. -/
def mergeKeyValLines (separator : Str) (fromLines toLines : List Str) : Option (List Str) :=
  match kvNewLines separator toLines fromLines [] with
  | none => none
  | some newLines => some (toLines ++ newLines)

/-- `MergeKeyValFile(fromFile, toFile, separator)`. -/
def MergeKeyValFile (fromFile toFile : Path) (separator : Str) (fs : FS) : Res × FS :=
  match OpenLines fs fromFile with
  | (fromLines, Res.nil) =>
    match OpenLines fs toFile with
    | (toLines, Res.nil) =>
      match mergeKeyValLines separator fromLines toLines with
      | none => (Res.panic, fs)
      | some merged => Overwrite merged toFile fs
    | (_, e) => (e, fs)
  | (_, e) => (e, fs)

/-- `mergeFile(sourceFile, destinationFile)`. -/
def mergeFile (sourceFile destinationFile : Path) (fs : FS) : Res × FS :=
  if HasSuffix sourceFile ".java".toList || HasSuffix sourceFile ".kt".toList then
    (Res.nil, fs)
  else if HasSuffix sourceFile ".properties".toList then
    MergeKeyValFile sourceFile destinationFile "=".toList fs
  else MergeTextFiles sourceFile destinationFile fs

/-- `CopyOrMerge(sourceFile, destinationFile)`. -/
def CopyOrMerge (sourceFile destinationFile : Path) (fs : FS) : Res × FS :=
  if Exists fs destinationFile then mergeFile sourceFile destinationFile fs
  else copyFile sourceFile destinationFile fs

/-- What `RelPath` leaves: the string and the error it returns (`none` for `nil`,
else the message), or a run-time panic. -/
inductive PathRes
  | ret (rel : Str) (err : Option Str)
  | panic
  deriving DecidableEq, Repr

/-- The loop of `RelPath` (lines 185-191): `i` is the index the loop has reached,
the list the parts of the directory from there on; `none` when `fileParts[i]` is
out of range. -/
def relPathCut (fileParts : List Str) : List Str → Nat → Nat → Option Nat
  | [], _, cut => some cut
  | directoryPart :: rest, i, cut =>
    match fileParts[i]? with
    | none => none
    | some filePart =>
      if directoryPart = filePart then relPathCut fileParts rest (i + 1) (cut + 1)
      else some cut

/-- `RelPath(sourceDirectory, filePath)`. -/
def RelPath (sourceDirectory filePath : Path) : PathRes :=
  let directoryParts := Split sourceDirectory pathSeparator
  let fileParts := Split filePath pathSeparator
  if directoryParts.length ≥ fileParts.length then
    PathRes.ret [] (some "directory cannot be deeper than filePath".toList)
  else
    match relPathCut fileParts directoryParts 0 0 with
    | none => PathRes.panic
    | some cut => PathRes.ret (Join (fileParts.drop cut) pathSeparator) none

/-- The loop of `Equal` (lines 305-309): `i` is the index the loop has reached, the
list the lines of the first file from there on; `none` when `fileBLines[i]` is out
of range. -/
def equalLoop (fileBLines : List Str) : List Str → Nat → Option Bool
  | [], _ => some true
  | lineA :: rest, i =>
    match fileBLines[i]? with
    | none => none
    | some lineB => if lineA ≠ lineB then some false else equalLoop fileBLines rest (i + 1)

/-- `Equal(fileA, fileB)`. -/
def Equal (fileA fileB : Path) (fs : FS) : Bool × Res :=
  match OpenLines fs fileA with
  | (fileALines, Res.nil) =>
    match OpenLines fs fileB with
    | (fileBLines, Res.nil) =>
      if fileALines.length ≠ fileBLines.length then (false, Res.nil)
      else
        match equalLoop fileBLines fileALines 0 with
        | none => (false, Res.panic)
        | some same => (same, Res.nil)
    | (_, e) => (false, e)
  | (_, e) => (false, e)

/-! ## What the loops of `MergeKeyValFile` test -/

/-- The key the code takes from a line: the first piece of its split. -/
def keyOf (separator line : Str) : Str :=
  ((Split line separator)[0]?).getD []

/-- The destination lines whose key the inner loop of `MergeKeyValFile` compares:
all but those its guard passes over. -/
def kvCompared (separator toLine : Str) : Bool :=
  !(toLine == [] && !Contains toLine separator)

/-- The source lines the outer loop of `MergeKeyValFile` looks at. -/
def kvEligible (separator fromLine : Str) : Bool :=
  !(fromLine == [] || !Contains fromLine separator)

/-- The source lines `MergeKeyValFile` queues: eligible, and of a key that no
compared destination line has. -/
def kvQueued (separator : Str) (toLines : List Str) (fromLine : Str) : Bool :=
  kvEligible separator fromLine &&
    !toLines.any (fun t => kvCompared separator t && decide (keyOf separator fromLine = keyOf separator t))

/-! ## Key-value lines for the separator `=`, as the specification words them -/

/-- Spec, section 3: the key of a line, the text before its first `=`. -/
def specKey (line : Str) : Str :=
  line.takeWhile (fun c => c != '=')

/-- Spec, section 3: a key-value line is a non-empty line that contains `=`. -/
def specIsKeyVal (line : Str) : Bool :=
  decide (line ≠ [] ∧ '=' ∈ line)

/-- The keys of the key-value lines of a line sequence, in order. -/
def specKeys (lines : List Str) : List Str :=
  (lines.filter specIsKeyVal).map specKey

/-! ## Key-value lines for any separator, as the specification words them -/

/-- Spec, section 3: the key of a line, the text before the first occurrence of
the separator (the whole line when there is none). -/
def specKeyBefore (separator : Str) : Str → Str
  | [] => []
  | c :: s => if separator.isPrefixOf (c :: s) then [] else c :: specKeyBefore separator s

/-- Spec, section 3: a key-value line is a non-empty line in which the separator
occurs. -/
def specIsKeyValFor (separator line : Str) : Bool :=
  decide (line ≠ [] ∧ separator <:+: line)

/-- The keys of the key-value lines of a line sequence, in order. -/
def specKeysFor (separator : Str) (lines : List Str) : List Str :=
  (lines.filter (specIsKeyValFor separator)).map (specKeyBefore separator)

/-! ## Bytes and segments, as the specification words them -/

/-- The bytes that appending lines adds to a file: for each line in order, one
line terminator and the line. -/
def appendedBytes : List Str → Str
  | [] => []
  | line :: rest => newline ++ line ++ appendedBytes rest

/-- The number of leading positions at which two segment lists agree: the length
of their longest common prefix. -/
def commonPrefixLength : List Str → List Str → Nat
  | a :: as, b :: bs => if a = b then commonPrefixLength as bs + 1 else 0
  | _, _ => 0

/-! ## The shape the two merges share -/

/-- The shape the two merges share: the destination's lines, then the lines a
rule `N` picks from the source, written over the destination. -/
def mergeWith (N : List Str → List Str → List Str) (src dst : Path) (fs : FS) : Res × FS :=
  Overwrite ((OpenLines fs dst).1 ++ N (OpenLines fs src).1 (OpenLines fs dst).1) dst fs

/-- The rule of `MergeTextFiles`: the lines its loop queues. -/
def textRule (fromLines toLines : List Str) : List Str :=
  textNewLines toLines fromLines []

/-- The rule of `MergeKeyValFile`: the lines its loop queues, none when it panics. -/
def kvRule (separator : Str) (fromLines toLines : List Str) : List Str :=
  (kvNewLines separator toLines fromLines []).getD []

/-! ## A file system to try the operations on -/

/-- A project with a property file, a note and a source file, and the templates
offered for them. -/
def demoFS : FS :=
  { node := fun p =>
      if p = "app.properties".toList then some (Node.file ⟨"a=1\nb=2".toList, 420⟩)
      else if p = "tpl/app.properties".toList then some (Node.file ⟨"b=9\nc=3".toList, 420⟩)
      else if p = "notes.txt".toList then some (Node.file ⟨"x\ny".toList, 420⟩)
      else if p = "tpl/notes.txt".toList then some (Node.file ⟨"y\nz".toList, 420⟩)
      else if p = "Main.java".toList then some (Node.file ⟨"class Main".toList, 420⟩)
      else if p = "tpl/Main.java".toList then some (Node.file ⟨"class Tpl".toList, 420⟩)
      else if p = "tpl".toList then some (Node.dir 493)
      else none
    fault := fun _ _ => false
    umask := 18 }

/-- A project without a `conf` directory, with a property file that ends in a
line terminator, and templates of several modes; the umask is `022`. -/
def bareFS : FS :=
  { node := fun p =>
      if p = "tpl".toList then some (Node.dir 493)
      else if p = "tpl/config.yml".toList then some (Node.file ⟨"port: 80".toList, 420⟩)
      else if p = "tpl/run.sh".toList then some (Node.file ⟨"exit 0".toList, 511⟩)
      else if p = "tpl/app.properties".toList then some (Node.file ⟨"c=3".toList, 420⟩)
      else if p = "app.properties".toList then some (Node.file ⟨"a=1\n".toList, 420⟩)
      else none
    fault := fun _ _ => false
    umask := 18 }

/-- The project of `demoFS` with its note and its property file write-only: both
are there and may be written, and opening either for reading is refused. -/
def writeOnlyFS : FS :=
  { demoFS with
    fault := fun op p =>
      decide (op = Op.read ∧ (p = "notes.txt".toList ∨ p = "app.properties".toList)) }

/-! ## Lemmas on the `strings` package -/

theorem splitAux_ne_nil (sep : Str) (k : Nat) (cur s : Str) :
    splitAux sep k cur s ≠ [] := by
  induction s generalizing k cur with
  | nil => simp [splitAux]
  | cons c s ih =>
    cases k with
    | zero =>
      simp only [splitAux]
      split
      · simp
      · exact ih _ _
    | succ k =>
      simp only [splitAux]
      exact ih _ _

theorem Split_ne_nil (s sep : Str) (h : sep ≠ []) : Split s sep ≠ [] := by
  simp only [Split, h, if_false]
  exact splitAux_ne_nil _ _ _ _

theorem splitAux_single_nil (c : Char) (cur : Str) :
    splitAux [c] 0 cur [] = [cur.reverse] := by
  simp [splitAux]

theorem splitAux_single_cons (c d : Char) (cur s : Str) :
    splitAux [c] 0 cur (d :: s) =
      if c = d then cur.reverse :: splitAux [c] 0 [] s else splitAux [c] 0 (d :: cur) s := by
  simp [splitAux, List.isPrefixOf]

/-- Up to the first separator character the input is gathered into the piece. -/
theorem splitAux_single_append (c : Char) (l : Str) (hl : c ∉ l) (cur rest : Str) :
    splitAux [c] 0 cur (l ++ rest) = splitAux [c] 0 (l.reverse ++ cur) rest := by
  induction l generalizing cur with
  | nil => simp
  | cons d l ih =>
    have hd : c ≠ d := fun h => hl (by simp [h])
    have hl2 : c ∉ l := fun h => hl (by simp [h])
    simp only [List.cons_append, splitAux_single_cons, hd, if_false, ih hl2]
    simp

theorem Join_cons_cons (a b : Str) (rest : List Str) (sep : Str) :
    Join (a :: b :: rest) sep = a ++ sep ++ Join (b :: rest) sep := rfl

theorem Join_cons_of_ne_nil (a : Str) (rest : List Str) (sep : Str) (h : rest ≠ []) :
    Join (a :: rest) sep = a ++ sep ++ Join rest sep := by
  cases rest with
  | nil => exact absurd rfl h
  | cons b rest => rfl

/-- Splitting what `Join` made, on a one-character separator no piece holds. -/
theorem splitAux_Join_single (c : Char) (ls : List Str) (hne : ls ≠ [])
    (hls : ∀ l ∈ ls, c ∉ l) : splitAux [c] 0 [] (Join ls [c]) = ls := by
  induction ls with
  | nil => exact absurd rfl hne
  | cons a rest ih =>
    have ha : c ∉ a := hls a (by simp)
    cases rest with
    | nil =>
      have := splitAux_single_append c a ha [] []
      simp only [List.append_nil] at this
      simp [Join, this, splitAux_single_nil]
    | cons b rest =>
      have hrest : ∀ l ∈ b :: rest, c ∉ l := fun l hl => hls l (by simp [hl])
      rw [Join_cons_cons, List.append_assoc, splitAux_single_append c a ha]
      simp only [List.singleton_append, splitAux_single_cons, if_true, List.append_nil,
        List.reverse_reverse]
      rw [ih (by simp) hrest]

theorem Split_Join_single (c : Char) (ls : List Str) (hne : ls ≠ [])
    (hls : ∀ l ∈ ls, c ∉ l) : Split (Join ls [c]) [c] = ls := by
  simp only [Split, List.cons_ne_nil, if_false]
  exact splitAux_Join_single c ls hne hls

theorem Join_splitAux_single (c : Char) (cur s : Str) :
    Join (splitAux [c] 0 cur s) [c] = cur.reverse ++ s := by
  induction s generalizing cur with
  | nil => simp [splitAux_single_nil, Join]
  | cons d s ih =>
    rw [splitAux_single_cons]
    split
    · next h =>
      rw [Join_cons_of_ne_nil _ _ _ (splitAux_ne_nil _ _ _ _), ih]
      simp [h]
    · rw [ih]
      simp

theorem Join_Split_single (c : Char) (s : Str) : Join (Split s [c]) [c] = s := by
  simp only [Split, List.cons_ne_nil, if_false]
  simpa using Join_splitAux_single c [] s

theorem splitAux_single_not_mem (c : Char) (cur s : Str) (hcur : c ∉ cur) :
    ∀ l ∈ splitAux [c] 0 cur s, c ∉ l := by
  induction s generalizing cur with
  | nil =>
    intro l hl
    simp only [splitAux_single_nil, List.mem_singleton] at hl
    simpa [hl] using hcur
  | cons d s ih =>
    intro l hl
    rw [splitAux_single_cons] at hl
    split at hl
    · rcases List.mem_cons.1 hl with h | h
      · simpa [h] using hcur
      · exact ih [] (by simp) l h
    · next hd =>
      exact ih (d :: cur) (by simp [hd, hcur]) l hl

theorem Split_single_not_mem (c : Char) (s : Str) : ∀ l ∈ Split s [c], c ∉ l := by
  simp only [Split, List.cons_ne_nil, if_false]
  exact splitAux_single_not_mem c [] s (by simp)

theorem splitAux_single_head (c : Char) (cur s : Str) :
    (splitAux [c] 0 cur s)[0]? = some (cur.reverse ++ s.takeWhile (fun d => d != c)) := by
  induction s generalizing cur with
  | nil => simp [splitAux_single_nil]
  | cons d s ih =>
    rw [splitAux_single_cons]
    split
    · next h => simp [List.takeWhile, h]
    · next h =>
      have hd : (d != c) = true := by simpa using fun e => h e.symm
      rw [ih]
      simp [List.takeWhile, hd]

/-- The first piece of a split on one character is the text before the first
occurrence of that character. -/
theorem Split_single_head (c : Char) (s : Str) :
    (Split s [c])[0]? = some (s.takeWhile (fun d => d != c)) := by
  simp only [Split, List.cons_ne_nil, if_false]
  simpa using splitAux_single_head c [] s

theorem Contains_single (c : Char) (s : Str) : Contains s [c] = true ↔ c ∈ s := by
  induction s with
  | nil => simp [Contains]
  | cons d s ih =>
    simp only [Contains, List.isPrefixOf, Bool.or_eq_true, Bool.and_eq_true, ih,
      List.mem_cons]
    simp

/-! ## The loops of the two merges as filters -/

theorem textHasLine_eq (fromLine : Str) (toLines : List Str) (hasLine : Bool) :
    textHasLine fromLine toLines hasLine = (hasLine || decide (fromLine ∈ toLines)) := by
  induction toLines generalizing hasLine with
  | nil => simp [textHasLine]
  | cons t rest ih =>
    simp only [textHasLine, ih]
    by_cases e : fromLine = t
    · simp [e]
    · simp [e]

theorem textNewLines_eq (toLines fromLines newLines : List Str) :
    textNewLines toLines fromLines newLines =
      newLines ++ fromLines.filter (fun l => decide (l ∉ toLines)) := by
  induction fromLines generalizing newLines with
  | nil => simp [textNewLines]
  | cons f rest ih =>
    simp only [textNewLines, textHasLine_eq, Bool.false_or, ih]
    by_cases e : f ∈ toLines
    · simp [e]
    · simp [e]

theorem mergeTextLines_eq (fromLines toLines : List Str) :
    mergeTextLines fromLines toLines =
      toLines ++ fromLines.filter (fun l => decide (l ∉ toLines)) := by
  simp [mergeTextLines, textNewLines_eq]

theorem Split_head (separator line : Str) (h : separator ≠ []) :
    (Split line separator)[0]? = some (keyOf separator line) := by
  unfold keyOf
  cases hs : Split line separator with
  | nil => exact absurd hs (Split_ne_nil _ _ h)
  | cons a rest => simp

theorem kvHasLine_eq (separator fromKey : Str) (h : separator ≠ []) (toLines : List Str)
    (hasLine : Bool) :
    kvHasLine separator fromKey toLines hasLine =
      some (hasLine ||
        toLines.any (fun t => kvCompared separator t && decide (fromKey = keyOf separator t))) := by
  induction toLines generalizing hasLine with
  | nil => simp [kvHasLine]
  | cons t rest ih =>
    rw [kvHasLine, Split_head _ _ h, List.any_cons]
    by_cases hg : (t == [] && !Contains t separator) = true
    · have hc : kvCompared separator t = false := by
        unfold kvCompared
        rw [hg]
        rfl
      rw [if_pos hg, ih, hc]
      simp
    · have hc : kvCompared separator t = true := by
        unfold kvCompared
        rw [Bool.not_eq_true] at hg
        rw [hg]
        rfl
      rw [if_neg hg, hc]
      simp only [ih]
      by_cases e : fromKey = keyOf separator t
      · simp [e]
      · simp [e]

theorem kvNewLines_eq (separator : Str) (h : separator ≠ []) (toLines fromLines newLines : List Str) :
    kvNewLines separator toLines fromLines newLines =
      some (newLines ++ fromLines.filter (kvQueued separator toLines)) := by
  induction fromLines generalizing newLines with
  | nil => simp [kvNewLines]
  | cons f rest ih =>
    rw [kvNewLines, Split_head _ _ h, List.filter_cons]
    simp only [kvHasLine_eq _ _ h, Bool.false_or]
    by_cases hg : (f == [] || !Contains f separator) = true
    · have hq : kvQueued separator toLines f = false := by
        unfold kvQueued kvEligible
        rw [hg]
        rfl
      rw [if_pos hg, ih, hq]
      simp
    · have he : kvEligible separator f = true := by
        unfold kvEligible
        rw [Bool.not_eq_true] at hg
        rw [hg]
        rfl
      rw [if_neg hg]
      by_cases ha : toLines.any (fun t => kvCompared separator t &&
          decide (keyOf separator f = keyOf separator t)) = true
      · have hq : kvQueued separator toLines f = false := by
          unfold kvQueued
          rw [he, ha]
          rfl
        simp only [ha, hq, ih]
        simp
      · have hq : kvQueued separator toLines f = true := by
          unfold kvQueued
          rw [Bool.not_eq_true] at ha
          rw [he, ha]
          rfl
        rw [Bool.not_eq_true] at ha
        simp only [ha, hq, ih]
        simp

theorem mergeKeyValLines_eq (separator : Str) (h : separator ≠ []) (fromLines toLines : List Str) :
    mergeKeyValLines separator fromLines toLines =
      some (toLines ++ fromLines.filter (kvQueued separator toLines)) := by
  simp [mergeKeyValLines, kvNewLines_eq _ h]

/-! ## Key-value lines for the separator `=`: the code and the specification -/

theorem keyOf_eq_specKey (line : Str) : keyOf ['='] line = specKey line := by
  simp [keyOf, Split_single_head, specKey]

theorem kvEligible_iff (line : Str) : kvEligible ['='] line = true ↔ line ≠ [] ∧ '=' ∈ line := by
  unfold kvEligible
  rw [Bool.not_eq_true', Bool.or_eq_false_iff, Bool.not_eq_false', Contains_single]
  simp

theorem kvCompared_iff (line : Str) : kvCompared ['='] line = true ↔ line ≠ [] := by
  unfold kvCompared
  cases line with
  | nil => simp [Contains]
  | cons c l => simp

/-- What the loop of `MergeKeyValFile` queues for the separator `=`: the
key-value lines of the source whose key is the first piece of no non-empty
destination line. -/
theorem kvQueued_iff (toLines : List Str) (line : Str) :
    kvQueued ['='] toLines line = true ↔
      (line ≠ [] ∧ '=' ∈ line) ∧ ∀ t ∈ toLines, t ≠ [] → specKey line ≠ specKey t := by
  unfold kvQueued
  rw [Bool.and_eq_true, kvEligible_iff, Bool.not_eq_true', List.any_eq_false]
  simp only [Bool.and_eq_true, kvCompared_iff, keyOf_eq_specKey, decide_eq_true_eq, not_and]

theorem specKeys_append (a b : List Str) : specKeys (a ++ b) = specKeys a ++ specKeys b := by
  simp [specKeys]

/-! ## Reading and writing in the file-system model -/

theorem FS.set_set (fs : FS) (p : Path) (a b : Node) : (fs.set p a).set p b = fs.set p b := by
  unfold FS.set
  congr 1
  funext q
  by_cases h : q = p <;> simp [h]

theorem OpenLines_snd (fs : FS) (p : Path) : (OpenLines fs p).2 = Res.nil := by
  unfold OpenLines Open
  cases readFile fs p <;> rfl

theorem OpenLines_eq (fs : FS) (p : Path) : OpenLines fs p = ((OpenLines fs p).1, Res.nil) := by
  rw [← OpenLines_snd fs p]

theorem OpenLines_of_ok (fs : FS) (p : Path) (b : Str) (h : readFile fs p = Except.ok b) :
    (OpenLines fs p).1 = Split b newline := by
  simp [OpenLines, Open, h]

theorem OpenLines_of_error (fs : FS) (p : Path) (e : IOError) (h : readFile fs p = Except.error e) :
    (OpenLines fs p).1 = [] := by
  simp [OpenLines, Open, h]

/-- No line that `OpenLines` returns holds a line terminator. -/
theorem OpenLines_not_mem_newline (fs : FS) (p : Path) :
    ∀ l ∈ (OpenLines fs p).1, '\n' ∉ l := by
  cases h : readFile fs p with
  | error e => simp [OpenLines_of_error fs p e h]
  | ok b =>
    rw [OpenLines_of_ok fs p b h]
    exact Split_single_not_mem '\n' b

theorem readFile_of_fault (fs : FS) (p : Path) (h : fs.fault Op.read p = true) :
    ∃ e, readFile fs p = Except.error e := by
  unfold readFile
  by_cases hp : p = []
  · exact ⟨IOError.notExist, by simp [hp]⟩
  · cases hn : fs.node p with
    | none => exact ⟨IOError.notExist, by simp [hp]⟩
    | some n =>
      cases n with
      | dir m => exact ⟨IOError.isDir, by simp [hp]⟩
      | file f => exact ⟨IOError.denied, by simp [hp, h]⟩

theorem readFile_set_self (fs : FS) (p : Path) (hp : p ≠ []) (f : File) :
    readFile (fs.set p (Node.file f)) p =
      if fs.fault Op.read p then Except.error IOError.denied else Except.ok f.content := by
  simp [readFile, FS.set, hp]

theorem readFile_set_ne (fs : FS) (p q : Path) (n : Node) (h : q ≠ p) :
    readFile (fs.set p n) q = readFile fs q := by
  simp [readFile, FS.set, h]

theorem OpenLines_set_ne (fs : FS) (p q : Path) (n : Node) (h : q ≠ p) :
    OpenLines (fs.set p n) q = OpenLines fs q := by
  simp [OpenLines, Open, readFile_set_ne fs p q n h]

/-- A write either is refused, whatever the data, and changes nothing, or goes
through, whatever the data, and leaves a file of a mode the data has no part in. -/
theorem writeFile_cases (p : Path) (perm : Nat) (fs : FS) :
    (∃ e, ∀ data, writeFile p data perm fs = (Res.err e, fs)) ∨
    (∃ m, p ≠ [] ∧ fs.fault Op.write p = false ∧
      ∀ data, writeFile p data perm fs = (Res.nil, fs.set p (Node.file ⟨data, m⟩))) := by
  unfold writeFile
  by_cases hp : p = []
  · exact Or.inl ⟨IOError.notExist, fun _ => by simp [hp]⟩
  · cases hn : fs.node p with
    | none =>
      cases hf : fs.fault Op.write p with
      | true => exact Or.inl ⟨IOError.denied, fun _ => by simp [hp]⟩
      | false =>
        cases hd : parentPresent fs p with
        | true => exact Or.inr ⟨applyUmask perm fs.umask, hp, rfl, fun _ => by simp [hp]⟩
        | false => exact Or.inl ⟨IOError.notExist, fun _ => by simp [hp]⟩
    | some n =>
      cases n with
      | dir m => exact Or.inl ⟨IOError.isDir, fun _ => by simp [hp]⟩
      | file f =>
        cases hf : fs.fault Op.write p with
        | true => exact Or.inl ⟨IOError.denied, fun _ => by simp [hp]⟩
        | false => exact Or.inr ⟨f.mode, hp, rfl, fun _ => by simp [hp]⟩

/-- Writing over a file that a write has just left. -/
theorem writeFile_set_self (p : Path) (hp : p ≠ []) (perm : Nat) (fs : FS)
    (hf : fs.fault Op.write p = false) (d data : Str) (m : Nat) :
    writeFile p data perm (fs.set p (Node.file ⟨d, m⟩)) =
      (Res.nil, fs.set p (Node.file ⟨data, m⟩)) := by
  have h1 : (fs.set p (Node.file ⟨d, m⟩)).node p = some (Node.file ⟨d, m⟩) := by simp [FS.set]
  have h2 : (fs.set p (Node.file ⟨d, m⟩)).fault Op.write p = false := by simpa [FS.set] using hf
  unfold writeFile
  rw [h1]
  simp only [hp, if_false, h2, Bool.false_eq_true, FS.set_set]

theorem OpenLines_of_fault (fs : FS) (p : Path) (h : fs.fault Op.read p = true) :
    (OpenLines fs p).1 = [] := by
  obtain ⟨e, he⟩ := readFile_of_fault fs p h
  exact OpenLines_of_error fs p e he

/-- The lines read back from a file that `Overwrite` has just written. -/
theorem OpenLines_set_self (fs : FS) (p : Path) (hp : p ≠ []) (data : Str) (m : Nat)
    (hr : fs.fault Op.read p = false) :
    (OpenLines (fs.set p (Node.file ⟨data, m⟩)) p).1 = Split data newline := by
  apply OpenLines_of_ok
  rw [readFile_set_self fs p hp, hr]
  rfl

theorem Split_Join_newline (lines : List Str) (hne : lines ≠ [])
    (hnl : ∀ l ∈ lines, '\n' ∉ l) : Split (Join lines newline) newline = lines :=
  Split_Join_single '\n' lines hne hnl

/-- After a merge of the shared shape the destination's lines begin with the
lines it had. -/
theorem mergeWith_keeps_lines (N : List Str → List Str → List Str)
    (hsub : ∀ f t, ∀ l ∈ N f t, l ∈ f) (src dst : Path) (fs : FS) :
    (OpenLines fs dst).1 <+: (OpenLines (mergeWith N src dst fs).2 dst).1 := by
  unfold mergeWith Overwrite
  rcases writeFile_cases dst 420 fs with ⟨e, he⟩ | ⟨m, hp, _, hw⟩
  · rw [he]
  · rw [hw]
    by_cases hne : (OpenLines fs dst).1 = []
    · rw [hne]
      exact List.nil_prefix
    · cases hr : fs.fault Op.read dst with
      | true => exact absurd (OpenLines_of_fault fs dst hr) hne
      | false =>
        have hall : ∀ l ∈ (OpenLines fs dst).1 ++ N (OpenLines fs src).1 (OpenLines fs dst).1,
            '\n' ∉ l := by
          intro l hl
          rcases List.mem_append.1 hl with h | h
          · exact OpenLines_not_mem_newline fs dst l h
          · exact OpenLines_not_mem_newline fs src l (hsub _ _ l h)
        rw [OpenLines_set_self fs dst hp _ m hr, Split_Join_newline _ (by simp [hne]) hall]
        exact List.prefix_append _ _

/-- A second merge of the shared shape, from the same source, repeats the first
one's result and leaves the file system as the first one left it. -/
theorem mergeWith_idem (N : List Str → List Str → List Str)
    (hsub : ∀ f t, ∀ l ∈ N f t, l ∈ f)
    (hidem : ∀ f t, N f (t ++ N f t) = [])
    (hself : ∀ t, N t t = [])
    (hnil : ∀ f, N f [] = [] → N f [[]] = [])
    (src dst : Path) (fs : FS) :
    mergeWith N src dst (mergeWith N src dst fs).2 = mergeWith N src dst fs := by
  rcases writeFile_cases dst 420 fs with ⟨e, he⟩ | ⟨m, hp, hf, hw⟩
  · have h1 : mergeWith N src dst fs = (Res.err e, fs) := by
      unfold mergeWith Overwrite
      rw [he]
    rw [h1]
    exact h1
  · have h1 : mergeWith N src dst fs = (Res.nil, fs.set dst (Node.file
        ⟨Join ((OpenLines fs dst).1 ++ N (OpenLines fs src).1 (OpenLines fs dst).1) newline, m⟩)) := by
      unfold mergeWith Overwrite
      rw [hw]
    rw [h1]
    simp only
    generalize hto : (OpenLines fs dst).1 = toLines
    generalize hfrom : (OpenLines fs src).1 = fromLines
    have hnlto : ∀ l ∈ toLines, '\n' ∉ l := hto ▸ OpenLines_not_mem_newline fs dst
    have hnlfrom : ∀ l ∈ fromLines, '\n' ∉ l := hfrom ▸ OpenLines_not_mem_newline fs src
    have hall : ∀ l ∈ toLines ++ N fromLines toLines, '\n' ∉ l := by
      intro l hl
      rcases List.mem_append.1 hl with h | h
      · exact hnlto l h
      · exact hnlfrom l (hsub _ _ l h)
    generalize hfs1 : fs.set dst (Node.file ⟨Join (toLines ++ N fromLines toLines) newline, m⟩) = fs1
    have hfault : fs1.fault = fs.fault := by rw [← hfs1]; rfl
    -- the lines the second run reads
    have hkey : Join ((OpenLines fs1 dst).1 ++ N (OpenLines fs1 src).1 (OpenLines fs1 dst).1) newline
        = Join (toLines ++ N fromLines toLines) newline := by
      have hsrc : src ≠ dst → (OpenLines fs1 src).1 = fromLines := by
        intro hsd
        rw [← hfs1, OpenLines_set_ne fs dst src _ hsd, hfrom]
      have hsame : src = dst → fromLines = toLines := by
        intro hsd
        rw [← hfrom, ← hto, hsd]
      cases hr : fs.fault Op.read dst with
      | true =>
        have hto0 : toLines = [] := by rw [← hto]; exact OpenLines_of_fault fs dst hr
        have hto1 : (OpenLines fs1 dst).1 = [] :=
          OpenLines_of_fault fs1 dst (by rw [hfault]; exact hr)
        by_cases hsd : src = dst
        · have hf0 : fromLines = [] := by rw [hsame hsd, hto0]
          have hf1 : (OpenLines fs1 src).1 = [] := by rw [hsd]; exact hto1
          rw [hto1, hf1, hto0, hf0]
        · rw [hto1, hsrc hsd, hto0]
      | false =>
        have hto1 : (OpenLines fs1 dst).1 =
            Split (Join (toLines ++ N fromLines toLines) newline) newline := by
          rw [← hfs1]
          exact OpenLines_set_self fs dst hp _ m hr
        by_cases hne : toLines ++ N fromLines toLines = []
        · have hto1n : (OpenLines fs1 dst).1 = [[]] := by
            rw [hto1, hne]
            rfl
          have hN : N fromLines [] = [] := by
            have := List.append_eq_nil.1 hne
            rw [this.1] at this
            exact this.2
          by_cases hsd : src = dst
          · have hf1 : (OpenLines fs1 src).1 = [[]] := by rw [hsd]; exact hto1n
            rw [hto1n, hf1, hself, hne]
            rfl
          · rw [hto1n, hsrc hsd, hnil _ hN, hne]
            rfl
        · have hto1n : (OpenLines fs1 dst).1 = toLines ++ N fromLines toLines := by
            rw [hto1, Split_Join_newline _ hne hall]
          by_cases hsd : src = dst
          · have hft := hsame hsd
            have hf1 : (OpenLines fs1 src).1 = toLines ++ N fromLines toLines := by
              rw [hsd]; exact hto1n
            rw [hto1n, hf1, hself, List.append_nil]
          · rw [hto1n, hsrc hsd, hidem, List.append_nil]
    unfold mergeWith Overwrite
    rw [hkey, ← hfs1, writeFile_set_self dst hp 420 fs hf]

/-! ## The two merges in the shared shape -/

theorem eqSep : "=".toList = ['='] := rfl

theorem MergeTextFiles_eq (src dst : Path) (fs : FS) :
    MergeTextFiles src dst fs = mergeWith textRule src dst fs := by
  have h1 := OpenLines_snd fs src
  have h2 := OpenLines_snd fs dst
  unfold MergeTextFiles mergeWith mergeTextLines textRule
  revert h1 h2
  cases OpenLines fs src with
  | mk a ra =>
    cases OpenLines fs dst with
    | mk b rb =>
      intro h1 h2
      simp only at h1 h2
      subst h1 h2
      rfl

theorem MergeKeyValFile_eq (src dst : Path) (separator : Str) (fs : FS) :
    MergeKeyValFile src dst separator fs =
      match kvNewLines separator (OpenLines fs dst).1 (OpenLines fs src).1 [] with
      | none => (Res.panic, fs)
      | some _ => mergeWith (kvRule separator) src dst fs := by
  have h1 := OpenLines_snd fs src
  have h2 := OpenLines_snd fs dst
  unfold MergeKeyValFile mergeWith mergeKeyValLines kvRule
  revert h1 h2
  cases OpenLines fs src with
  | mk a ra =>
    cases OpenLines fs dst with
    | mk b rb =>
      intro h1 h2
      simp only at h1 h2
      subst h1 h2
      simp only
      cases kvNewLines separator b a [] <;> rfl

/-- Whatever the separator, the lines the key-value loop queues are lines of the
source, in the source's order. -/
theorem kvNewLines_sublist (separator : Str) (toLines fromLines newLines out : List Str)
    (h : kvNewLines separator toLines fromLines newLines = some out) :
    ∃ picked, out = newLines ++ picked ∧ picked.Sublist fromLines := by
  induction fromLines generalizing newLines with
  | nil =>
    simp only [kvNewLines, Option.some.injEq] at h
    exact ⟨[], by simp [h], List.Sublist.refl _⟩
  | cons f rest ih =>
    rw [kvNewLines] at h
    split at h
    · obtain ⟨picked, h1, h2⟩ := ih newLines h
      exact ⟨picked, h1, h2.cons f⟩
    · split at h
      · exact absurd h (by simp)
      · split at h
        · exact absurd h (by simp)
        · split at h
          · obtain ⟨picked, h1, h2⟩ := ih _ h
            exact ⟨f :: picked, by simp [h1], h2.cons₂ f⟩
          · obtain ⟨picked, h1, h2⟩ := ih newLines h
            exact ⟨picked, h1, h2.cons f⟩

theorem kvRule_subset (separator : Str) (fromLines toLines : List Str) :
    ∀ l ∈ kvRule separator fromLines toLines, l ∈ fromLines := by
  intro l hl
  unfold kvRule at hl
  cases h : kvNewLines separator toLines fromLines [] with
  | none => simp [h] at hl
  | some out =>
    obtain ⟨picked, h1, h2⟩ := kvNewLines_sublist separator toLines fromLines [] out h
    simp only [h, Option.getD_some, h1, List.nil_append] at hl
    exact h2.subset hl

theorem textRule_eq (fromLines toLines : List Str) :
    textRule fromLines toLines = fromLines.filter (fun l => decide (l ∉ toLines)) := by
  simp [textRule, textNewLines_eq]

theorem kvRule_eq (fromLines toLines : List Str) :
    kvRule ['='] fromLines toLines = fromLines.filter (kvQueued ['='] toLines) := by
  simp [kvRule, kvNewLines_eq ['='] (by simp)]

theorem MergeKeyValFile_eq_mergeWith (src dst : Path) (fs : FS) :
    MergeKeyValFile src dst ['='] fs = mergeWith (kvRule ['=']) src dst fs := by
  rw [MergeKeyValFile_eq, kvNewLines_eq ['='] (by simp)]

/-- In the destination of a key-value merge for `=`, a source line is queued again
by no second pass. -/
theorem kvRule_idem (fromLines toLines : List Str) :
    kvRule ['='] fromLines (toLines ++ kvRule ['='] fromLines toLines) = [] := by
  rw [kvRule_eq, kvRule_eq, List.filter_eq_nil_iff]
  intro l hl hq
  rw [kvQueued_iff] at hq
  obtain ⟨hkv, hno⟩ := hq
  have hq0 : kvQueued ['='] toLines l = true := by
    rw [kvQueued_iff]
    exact ⟨hkv, fun t ht => hno t (List.mem_append_left _ ht)⟩
  exact hno l (List.mem_append_right _ (List.mem_filter.2 ⟨hl, hq0⟩)) hkv.1 rfl

theorem kvRule_self (toLines : List Str) : kvRule ['='] toLines toLines = [] := by
  rw [kvRule_eq, List.filter_eq_nil_iff]
  intro l hl hq
  rw [kvQueued_iff] at hq
  exact hq.2 l hl hq.1.1 rfl

theorem kvRule_nil (fromLines : List Str) (h : kvRule ['='] fromLines [] = []) :
    kvRule ['='] fromLines [[]] = [] := by
  rw [kvRule_eq, List.filter_eq_nil_iff] at *
  intro l hl hq
  apply h l hl
  rw [kvQueued_iff] at *
  exact ⟨hq.1, fun t ht => absurd ht (List.not_mem_nil t)⟩

theorem textRule_subset (fromLines toLines : List Str) :
    ∀ l ∈ textRule fromLines toLines, l ∈ fromLines := by
  intro l hl
  rw [textRule_eq] at hl
  exact (List.mem_filter.1 hl).1

theorem textRule_idem (fromLines toLines : List Str) :
    textRule fromLines (toLines ++ textRule fromLines toLines) = [] := by
  rw [textRule_eq, textRule_eq, List.filter_eq_nil_iff]
  intro l hl hq
  simp only [List.mem_append, List.mem_filter, decide_eq_true_eq, not_or, not_and, not_not] at hq
  exact hq.1 (hq.2 hl)

theorem textRule_self (toLines : List Str) : textRule toLines toLines = [] := by
  rw [textRule_eq, List.filter_eq_nil_iff]
  intro l hl hq
  simp only [decide_eq_true_eq] at hq
  exact hq hl

theorem textRule_nil (fromLines : List Str) (h : textRule fromLines [] = []) :
    textRule fromLines [[]] = [] := by
  rw [textRule_eq] at *
  have : fromLines = [] := by simpa using h
  rw [this]
  rfl

/-! ## Suffixes and the choice of a strategy -/

theorem HasSuffix_iff (s suffix : Str) : HasSuffix s suffix = true ↔ suffix <:+ s := by
  unfold HasSuffix
  exact List.isSuffixOf_iff_suffix

/-- A path that ends in `.properties` ends in neither `.java` nor `.kt`. -/
theorem properties_not_java_kt (s : Str) (h : ".properties".toList <:+ s) :
    ¬ ".java".toList <:+ s ∧ ¬ ".kt".toList <:+ s := by
  constructor
  · intro hj
    have := List.suffix_of_suffix_length_le hj h (by decide)
    rw [← List.isSuffixOf_iff_suffix] at this
    exact absurd this (by decide)
  · intro hk
    have := List.suffix_of_suffix_length_le hk h (by decide)
    rw [← List.isSuffixOf_iff_suffix] at this
    exact absurd this (by decide)

theorem mergeFile_skip (src dst : Path) (fs : FS)
    (h : ".java".toList <:+ src ∨ ".kt".toList <:+ src) : mergeFile src dst fs = (Res.nil, fs) := by
  unfold mergeFile
  rw [← HasSuffix_iff, ← HasSuffix_iff] at h
  rcases h with h | h
  · rw [h]
    simp only [Bool.true_or, if_true]
  · rw [h]
    simp only [Bool.or_true, if_true]

theorem mergeFile_properties (src dst : Path) (fs : FS) (h : ".properties".toList <:+ src) :
    mergeFile src dst fs = MergeKeyValFile src dst "=".toList fs := by
  obtain ⟨hj, hk⟩ := properties_not_java_kt src h
  rw [← HasSuffix_iff] at h hj hk
  rw [Bool.not_eq_true] at hj hk
  unfold mergeFile
  rw [hj, hk, h]
  simp only [Bool.or_false, Bool.false_eq_true, if_false, if_true]

theorem mergeFile_text (src dst : Path) (fs : FS) (hj : ¬ ".java".toList <:+ src)
    (hk : ¬ ".kt".toList <:+ src) (hp : ¬ ".properties".toList <:+ src) :
    mergeFile src dst fs = MergeTextFiles src dst fs := by
  rw [← HasSuffix_iff] at hj hk hp
  rw [Bool.not_eq_true] at hj hk hp
  unfold mergeFile
  rw [hj, hk, hp]
  simp only [Bool.or_false, Bool.false_eq_true, if_false]

/-! ## The claims -/

/-- When the destination can be read, its lines after `MergeKeyValFile` (any
separator, whether the call returns or panics) and after `MergeTextFiles` begin
with the lines it had before: the original line sequence is a prefix of the
merged one, so every original line keeps its index. The same holds of the line
sequences the two loops hand to `Overwrite`. -/
theorem readable_destination_lines_kept_in_place (fromFile toFile : Path) (separator : Str)
    (fs : FS) (content : Str) (hdst : readFile fs toFile = Except.ok content) :
    (OpenLines fs toFile).1 = Split content newline ∧
    Split content newline <+: (OpenLines (MergeKeyValFile fromFile toFile separator fs).2 toFile).1 ∧
    Split content newline <+: (OpenLines (MergeTextFiles fromFile toFile fs).2 toFile).1 ∧
    (∀ fromLines toLines merged : List Str,
      mergeKeyValLines separator fromLines toLines = some merged → toLines <+: merged) ∧
    (∀ fromLines toLines : List Str, toLines <+: mergeTextLines fromLines toLines) := by
  have hlines := OpenLines_of_ok fs toFile content hdst
  refine ⟨hlines, ?_, ?_, ?_, ?_⟩
  · rw [← hlines, MergeKeyValFile_eq]
    cases kvNewLines separator (OpenLines fs toFile).1 (OpenLines fs fromFile).1 [] with
    | none => exact List.prefix_refl _
    | some out => exact mergeWith_keeps_lines _ (kvRule_subset separator) fromFile toFile fs
  · rw [← hlines, MergeTextFiles_eq]
    exact mergeWith_keeps_lines _ textRule_subset fromFile toFile fs
  · intro fromLines toLines merged h
    unfold mergeKeyValLines at h
    cases hk : kvNewLines separator toLines fromLines [] with
    | none => simp [hk] at h
    | some out =>
      simp only [hk, Option.some.injEq] at h
      rw [← h]
      exact List.prefix_append _ _
  · intro fromLines toLines
    exact List.prefix_append _ _

/-- The property file of `demoFS`, merged from its template, keeps its lines in
place. -/
theorem readable_destination_lines_kept_in_place_at_demoFS :
    readFile demoFS "app.properties".toList = Except.ok "a=1\nb=2".toList ∧
    Split "a=1\nb=2".toList newline <+:
      (OpenLines (MergeKeyValFile "tpl/app.properties".toList "app.properties".toList
        "=".toList demoFS).2 "app.properties".toList).1 :=
  ⟨rfl, (readable_destination_lines_kept_in_place "tpl/app.properties".toList "app.properties".toList
    "=".toList demoFS "a=1\nb=2".toList rfl).2.1⟩

/-- C1, the code at a failing input: in `writeOnlyFS` the note `x`, `y` and the
property file `a=1`, `b=2` exist and may be written but not read. `Open` returns
the error, `OpenLines` returns no line and no error, so both merges take every
source line for new, return no error, and overwrite the destination with the
source's lines alone: the original lines are no prefix of what the file holds
afterwards. For every destination that can be read the original lines do stay a
prefix, after either merge and for any separator. -/
theorem C1_unreadable_destination_is_overwritten :
    (writeOnlyFS.node "notes.txt".toList = some (Node.file ⟨"x\ny".toList, 420⟩) ∧
      Open writeOnlyFS "notes.txt".toList = ([], Res.err IOError.denied) ∧
      OpenLines writeOnlyFS "notes.txt".toList = ([], Res.nil) ∧
      (MergeTextFiles "tpl/notes.txt".toList "notes.txt".toList writeOnlyFS).1 = Res.nil ∧
      (MergeTextFiles "tpl/notes.txt".toList "notes.txt".toList writeOnlyFS).2.node
        "notes.txt".toList = some (Node.file ⟨"y\nz".toList, 420⟩) ∧
      ¬ (Split "x\ny".toList newline <+: Split "y\nz".toList newline)) ∧
    (writeOnlyFS.node "app.properties".toList =
        some (Node.file ⟨"a=1\nb=2".toList, 420⟩) ∧
      OpenLines writeOnlyFS "app.properties".toList = ([], Res.nil) ∧
      (MergeKeyValFile "tpl/app.properties".toList "app.properties".toList "=".toList
        writeOnlyFS).1 = Res.nil ∧
      (MergeKeyValFile "tpl/app.properties".toList "app.properties".toList "=".toList
        writeOnlyFS).2.node "app.properties".toList =
          some (Node.file ⟨"b=9\nc=3".toList, 420⟩) ∧
      ¬ (Split "a=1\nb=2".toList newline <+: Split "b=9\nc=3".toList newline)) ∧
    (∀ (fromFile toFile : Path) (separator : Str) (fs : FS) (content : Str),
      readFile fs toFile = Except.ok content →
      Split content newline <+:
        (OpenLines (MergeKeyValFile fromFile toFile separator fs).2 toFile).1 ∧
      Split content newline <+: (OpenLines (MergeTextFiles fromFile toFile fs).2 toFile).1) :=
  ⟨⟨by decide, by decide, by decide, by decide, by decide, by decide⟩,
    ⟨by decide, by decide, by decide, by decide, by decide⟩,
    fun fromFile toFile separator fs content h =>
      ⟨(readable_destination_lines_kept_in_place fromFile toFile separator fs content h).2.1,
        (readable_destination_lines_kept_in_place fromFile toFile separator fs content h).2.2.1⟩⟩

/-- C2: for the separator `=`, what `MergeKeyValFile` writes is the destination's
lines followed by appended lines that form a subsequence of the source lines; each
appended line is non-empty, contains `=`, and has a key (the text before its first
`=`) different from the key of every key-value line of the destination; hence a
key-value line of the result whose key a key-value line of the destination has
is itself a destination line; and that sequence is what `MergeKeyValFile` hands
to `Overwrite` for the lines of the two files. Destination `a=1`, `b=2` and source
`b=9`, `c=3` give `a=1`, `b=2`, `c=3`. -/
theorem C2_keyval_appends_only_new_keys :
    (∀ fromLines toLines : List Str, ∃ appended : List Str,
      mergeKeyValLines "=".toList fromLines toLines = some (toLines ++ appended) ∧
      appended.Sublist fromLines ∧
      (∀ a ∈ appended, a ≠ [] ∧ '=' ∈ a ∧
        ∀ t ∈ toLines, t ≠ [] → '=' ∈ t → specKey a ≠ specKey t) ∧
      (∀ l ∈ toLines ++ appended, ∀ t ∈ toLines, t ≠ [] → '=' ∈ t →
        specKey l = specKey t → l ≠ [] → '=' ∈ l → l ∈ toLines)) ∧
    (∀ (fromFile toFile : Path) (fs : FS), ∃ merged : List Str,
      mergeKeyValLines "=".toList (OpenLines fs fromFile).1 (OpenLines fs toFile).1 =
        some merged ∧
      MergeKeyValFile fromFile toFile "=".toList fs = Overwrite merged toFile fs) ∧
    mergeKeyValLines "=".toList ["b=9".toList, "c=3".toList] ["a=1".toList, "b=2".toList] =
      some ["a=1".toList, "b=2".toList, "c=3".toList] := by
  refine ⟨fun fromLines toLines => ⟨fromLines.filter (kvQueued ['='] toLines), ?_, ?_, ?_, ?_⟩,
    fun fromFile toFile fs => ⟨_, mergeKeyValLines_eq ['='] (by simp) _ _, ?_⟩, ?_⟩
  · exact mergeKeyValLines_eq ['='] (by simp) fromLines toLines
  · exact List.filter_sublist _
  · intro a ha
    have hq := (kvQueued_iff toLines a).1 (List.mem_filter.1 ha).2
    exact ⟨hq.1.1, hq.1.2, fun t ht hne _ => hq.2 t ht hne⟩
  · intro l hl t ht hne _ hkey _ _
    rcases List.mem_append.1 hl with h | h
    · exact h
    · have hq := (kvQueued_iff toLines l).1 (List.mem_filter.1 h).2
      exact absurd hkey (hq.2 t ht hne)
  · rw [eqSep, MergeKeyValFile_eq_mergeWith, mergeWith, kvRule_eq]
  · decide

/-- C3, the code at a failing input: destination `c` (a line without `=`) and
source `c=3`. The source line is a key-value line and the destination has no
key-value line at all, yet the line is not appended: the merged sequence is the
destination's alone. -/
theorem C3_keyval_drops_line_for_keyless_destination_line :
    mergeKeyValLines "=".toList ["c=3".toList] ["c".toList] = some ["c".toList] ∧
    specIsKeyVal "c=3".toList = true ∧
    (∀ t ∈ ["c".toList], specIsKeyVal t = false) ∧
    (Split "c".toList "=".toList)[0]? = some "c".toList ∧
    (Split "c=3".toList "=".toList)[0]? = some "c".toList := by
  decide

/-- C4: what `MergeTextFiles` writes is the destination's lines followed by the
source lines equal to no destination line, in source order, blank lines like any
other, for the lines of the two files. Destination `x`, `y` and source `y`, `z`
give `x`, `y`, `z`. -/
theorem C4_text_merge_appends_absent_lines :
    (∀ fromLines toLines : List Str,
      mergeTextLines fromLines toLines =
        toLines ++ fromLines.filter (fun l => decide (l ∉ toLines))) ∧
    (∀ (fromFile toFile : Path) (fs : FS),
      MergeTextFiles fromFile toFile fs =
        Overwrite (mergeTextLines (OpenLines fs fromFile).1 (OpenLines fs toFile).1) toFile fs) ∧
    mergeTextLines ["y".toList, "z".toList] ["x".toList, "y".toList] =
      ["x".toList, "y".toList, "z".toList] ∧
    mergeTextLines ["".toList, "z".toList, "".toList] ["x".toList, "".toList] =
      ["x".toList, "".toList, "z".toList] :=
  ⟨mergeTextLines_eq, fun fromFile toFile fs => by
    rw [MergeTextFiles_eq, mergeWith, mergeTextLines, textRule], by decide, by decide⟩

/-- C5: for the separator `=`, a second `MergeKeyValFile` from the same source
returns what the first returned and leaves the file system, the destination's
content with it, as the first left it; on line sequences, merging the source into
the merged sequence appends nothing. -/
theorem C5_keyval_merge_idempotent (fromFile toFile : Path) (fs : FS) :
    MergeKeyValFile fromFile toFile "=".toList
        (MergeKeyValFile fromFile toFile "=".toList fs).2 =
      MergeKeyValFile fromFile toFile "=".toList fs ∧
    (∀ fromLines toLines : List Str, ∃ merged : List Str,
      mergeKeyValLines "=".toList fromLines toLines = some merged ∧
      mergeKeyValLines "=".toList fromLines merged = some merged) := by
  refine ⟨?_, fun fromLines toLines => ?_⟩
  · rw [eqSep, MergeKeyValFile_eq_mergeWith, MergeKeyValFile_eq_mergeWith]
    exact mergeWith_idem _ (kvRule_subset ['=']) kvRule_idem kvRule_self kvRule_nil fromFile toFile fs
  · refine ⟨toLines ++ fromLines.filter (kvQueued ['='] toLines),
      mergeKeyValLines_eq ['='] (by simp) fromLines toLines, ?_⟩
    rw [eqSep, mergeKeyValLines_eq ['='] (by simp), ← kvRule_eq, ← kvRule_eq, kvRule_idem,
      List.append_nil]

/-- C5 at the property file of `demoFS`: the first merge appends `c=3`, the second
nothing. -/
theorem C5_keyval_merge_idempotent_witness :
    readFile (MergeKeyValFile "tpl/app.properties".toList "app.properties".toList "=".toList
      demoFS).2 "app.properties".toList = Except.ok "a=1\nb=2\nc=3".toList ∧
    MergeKeyValFile "tpl/app.properties".toList "app.properties".toList "=".toList
        (MergeKeyValFile "tpl/app.properties".toList "app.properties".toList "=".toList
          demoFS).2 =
      MergeKeyValFile "tpl/app.properties".toList "app.properties".toList "=".toList demoFS :=
  ⟨rfl, (C5_keyval_merge_idempotent "tpl/app.properties".toList "app.properties".toList
    demoFS).1⟩

/-- C6: a second `MergeTextFiles` from the same source returns what the first
returned and leaves the file system, the destination's content with it, as the
first left it; on line sequences, merging the source into the merged sequence
appends nothing. -/
theorem C6_text_merge_idempotent (fromFile toFile : Path) (fs : FS) :
    MergeTextFiles fromFile toFile (MergeTextFiles fromFile toFile fs).2 =
      MergeTextFiles fromFile toFile fs ∧
    (∀ fromLines toLines : List Str,
      mergeTextLines fromLines (mergeTextLines fromLines toLines) =
        mergeTextLines fromLines toLines) := by
  refine ⟨?_, fun fromLines toLines => ?_⟩
  · rw [MergeTextFiles_eq, MergeTextFiles_eq]
    exact mergeWith_idem _ textRule_subset textRule_idem textRule_self textRule_nil fromFile toFile fs
  · have h := textRule_idem fromLines toLines
    unfold textRule at h
    unfold mergeTextLines
    rw [h, List.append_nil]

/-- C6 at the note of `demoFS`: the first merge appends `z`, the second nothing. -/
theorem C6_text_merge_idempotent_witness :
    readFile (MergeTextFiles "tpl/notes.txt".toList "notes.txt".toList demoFS).2
      "notes.txt".toList = Except.ok "x\ny\nz".toList ∧
    MergeTextFiles "tpl/notes.txt".toList "notes.txt".toList
        (MergeTextFiles "tpl/notes.txt".toList "notes.txt".toList demoFS).2 =
      MergeTextFiles "tpl/notes.txt".toList "notes.txt".toList demoFS :=
  ⟨rfl, (C6_text_merge_idempotent "tpl/notes.txt".toList "notes.txt".toList demoFS).1⟩

/-- C7, as stated, fails: a destination that already holds a key twice keeps both
lines (`a=1`, `a=2` stay, whatever is merged in), and a source that holds a new
key twice has both lines appended (`c=1`, `c=2`). -/
theorem C7_keyval_duplicate_keys_counterexample :
    (mergeKeyValLines "=".toList ["b=1".toList] ["a=1".toList, "a=2".toList] =
        some ["a=1".toList, "a=2".toList, "b=1".toList] ∧
      specKeys ["a=1".toList, "a=2".toList, "b=1".toList] =
        ["a".toList, "a".toList, "b".toList] ∧
      ¬ (specKeys ["a=1".toList, "a=2".toList, "b=1".toList]).Nodup) ∧
    (mergeKeyValLines "=".toList ["c=1".toList, "c=2".toList] ["a=1".toList] =
        some ["a=1".toList, "c=1".toList, "c=2".toList] ∧
      specKeys ["a=1".toList, "c=1".toList, "c=2".toList] =
        ["a".toList, "c".toList, "c".toList] ∧
      ¬ (specKeys ["a=1".toList, "c=1".toList, "c=2".toList]).Nodup) := by
  decide

/-- C7, amended: for the separator `=`, when no two key-value lines of the source
share a key and no two key-value lines of the destination share a key, no two
key-value lines of the merged destination share a key. -/
theorem C7_keyval_keys_stay_distinct (fromLines toLines : List Str)
    (hfrom : (specKeys fromLines).Nodup) (hto : (specKeys toLines).Nodup) :
    ∃ merged : List Str,
      mergeKeyValLines "=".toList fromLines toLines = some merged ∧
      (specKeys merged).Nodup := by
  refine ⟨toLines ++ fromLines.filter (kvQueued ['='] toLines),
    mergeKeyValLines_eq ['='] (by simp) fromLines toLines, ?_⟩
  rw [specKeys_append, List.nodup_append]
  refine ⟨hto, ?_, ?_⟩
  · exact List.Nodup.sublist
      (((List.filter_sublist fromLines).filter specIsKeyVal).map specKey) hfrom
  · intro k hk1 hk2
    simp only [specKeys, List.mem_map, List.mem_filter] at hk1 hk2
    obtain ⟨t, ⟨ht, htkv⟩, htk⟩ := hk1
    obtain ⟨a, ⟨⟨_, haq⟩, _⟩, hak⟩ := hk2
    have hq := (kvQueued_iff toLines a).1 haq
    have hne : t ≠ [] := by
      simp only [specIsKeyVal, decide_eq_true_eq] at htkv
      exact htkv.1
    exact hq.2 t ht hne (hak.trans htk.symm)

/-- C7, amended, at destination `a=1`, `b=2` and source `b=9`, `c=3`. -/
theorem C7_keyval_keys_stay_distinct_witness :
    (specKeys ["b=9".toList, "c=3".toList]).Nodup ∧
    (specKeys ["a=1".toList, "b=2".toList]).Nodup ∧
    ∃ merged : List Str,
      mergeKeyValLines "=".toList ["b=9".toList, "c=3".toList]
        ["a=1".toList, "b=2".toList] = some merged ∧
      (specKeys merged).Nodup :=
  ⟨by decide, by decide,
    C7_keyval_keys_stay_distinct ["b=9".toList, "c=3".toList] ["a=1".toList, "b=2".toList]
      (by decide) (by decide)⟩

/-- C8, as stated, fails: a line the source holds twice and the destination does
not hold is appended twice (destination `x`, source `z`, `z`). -/
theorem C8_text_appends_repeated_source_line_counterexample :
    mergeTextLines ["z".toList, "z".toList] ["x".toList] =
      ["x".toList] ++ ["z".toList, "z".toList] ∧
    ¬ (["z".toList, "z".toList] : List Str).Nodup := by
  decide

/-- C8, amended: no line `MergeTextFiles` appends is equal to a line of the
original destination; a line the destination does not hold is appended as many
times as the source holds it, so that no two appended lines are equal to each
other when no two source lines are. -/
theorem C8_text_appends_no_destination_line (fromLines toLines : List Str) :
    ∃ appended : List Str,
      mergeTextLines fromLines toLines = toLines ++ appended ∧
      (∀ l ∈ appended, l ∉ toLines) ∧
      (∀ l, l ∉ toLines → appended.count l = fromLines.count l) ∧
      (fromLines.Nodup → appended.Nodup) := by
  refine ⟨fromLines.filter (fun l => decide (l ∉ toLines)), mergeTextLines_eq _ _, ?_, ?_, ?_⟩
  · intro l hl
    simpa using (List.mem_filter.1 hl).2
  · intro l hl
    exact List.count_filter (by simpa using hl)
  · intro h
    exact h.filter _

/-- C8, amended, at destination `x`, `y` and source `y`, `z`. -/
theorem C8_text_appends_no_destination_line_witness :
    ∃ appended : List Str,
      mergeTextLines ["y".toList, "z".toList] ["x".toList, "y".toList] =
        ["x".toList, "y".toList] ++ appended ∧
      (∀ l ∈ appended, l ∉ ["x".toList, "y".toList]) ∧ appended.Nodup := by
  obtain ⟨appended, h1, h2, _, h4⟩ :=
    C8_text_appends_no_destination_line ["y".toList, "z".toList] ["x".toList, "y".toList]
  exact ⟨appended, h1, h2, h4 (by decide)⟩

/-- C9: when the destination exists, `CopyOrMerge` on a source path that ends in
`.properties` is `MergeKeyValFile` with the separator `=`, in result and in
effect, and on a source path that ends in none of `.java`, `.kt`, `.properties`
it is `MergeTextFiles`. -/
theorem C9_strategy_by_source_suffix (sourceFile destinationFile : Path) (fs : FS)
    (hex : Exists fs destinationFile = true) :
    (".properties".toList <:+ sourceFile →
      CopyOrMerge sourceFile destinationFile fs =
        MergeKeyValFile sourceFile destinationFile "=".toList fs) ∧
    (¬ ".java".toList <:+ sourceFile → ¬ ".kt".toList <:+ sourceFile →
      ¬ ".properties".toList <:+ sourceFile →
      CopyOrMerge sourceFile destinationFile fs =
        MergeTextFiles sourceFile destinationFile fs) := by
  unfold CopyOrMerge
  rw [hex]
  exact ⟨fun h => mergeFile_properties _ _ _ h, fun hj hk hp => mergeFile_text _ _ _ hj hk hp⟩

/-- C9 at the property file and at the note of `demoFS`. -/
theorem C9_strategy_by_source_suffix_witness :
    Exists demoFS "app.properties".toList = true ∧
    CopyOrMerge "tpl/app.properties".toList "app.properties".toList demoFS =
      MergeKeyValFile "tpl/app.properties".toList "app.properties".toList "=".toList demoFS ∧
    Exists demoFS "notes.txt".toList = true ∧
    CopyOrMerge "tpl/notes.txt".toList "notes.txt".toList demoFS =
      MergeTextFiles "tpl/notes.txt".toList "notes.txt".toList demoFS :=
  ⟨rfl, (C9_strategy_by_source_suffix "tpl/app.properties".toList "app.properties".toList
    demoFS rfl).1 ⟨"tpl/app".toList, rfl⟩,
    rfl, (C9_strategy_by_source_suffix "tpl/notes.txt".toList "notes.txt".toList
    demoFS rfl).2 (by decide) (by decide) (by decide)⟩

/-- C10: when the destination exists, `CopyOrMerge` on a source path that ends in
`.java` or `.kt` returns no error and leaves the whole file system, the
destination with it, as it was. -/
theorem C10_skip_is_a_no_op (sourceFile destinationFile : Path) (fs : FS)
    (hex : Exists fs destinationFile = true)
    (hsuffix : ".java".toList <:+ sourceFile ∨ ".kt".toList <:+ sourceFile) :
    CopyOrMerge sourceFile destinationFile fs = (Res.nil, fs) := by
  unfold CopyOrMerge
  rw [hex]
  exact mergeFile_skip _ _ _ hsuffix

/-- C10 at the source file of `demoFS`. -/
theorem C10_skip_is_a_no_op_witness :
    Exists demoFS "Main.java".toList = true ∧
    CopyOrMerge "tpl/Main.java".toList "Main.java".toList demoFS = (Res.nil, demoFS) :=
  ⟨rfl, C10_skip_is_a_no_op "tpl/Main.java".toList "Main.java".toList demoFS rfl
    (Or.inl ⟨"tpl/Main".toList, rfl⟩)⟩

/-! ## `RelPath` -/

theorem Join_append (a b : List Str) (sep : Str) (ha : a ≠ []) (hb : b ≠ []) :
    Join (a ++ b) sep = Join a sep ++ sep ++ Join b sep := by
  induction a with
  | nil => exact absurd rfl ha
  | cons x rest ih =>
    cases rest with
    | nil =>
      rw [List.singleton_append, Join_cons_of_ne_nil _ _ _ hb]
      rfl
    | cons y rest =>
      rw [List.cons_append, Join_cons_of_ne_nil _ _ _ (by simp), ih (by simp), Join_cons_cons]
      simp only [List.append_assoc]

theorem commonPrefixLength_le (a b : List Str) : commonPrefixLength a b ≤ a.length := by
  induction a generalizing b with
  | nil => simp [commonPrefixLength]
  | cons x rest ih =>
    cases b with
    | nil => simp [commonPrefixLength]
    | cons y bs =>
      simp only [commonPrefixLength]
      split
      · simpa using ih bs
      · simp

theorem commonPrefixLength_take (a b : List Str) :
    a.take (commonPrefixLength a b) = b.take (commonPrefixLength a b) := by
  induction a generalizing b with
  | nil => simp [commonPrefixLength]
  | cons x rest ih =>
    cases b with
    | nil => simp [commonPrefixLength]
    | cons y bs =>
      simp only [commonPrefixLength]
      split
      · next h => simp [h, ih bs]
      · simp

/-- No longer run of leading segments agrees. -/
theorem commonPrefixLength_max (a b : List Str) (j : Nat) (hj : j ≤ a.length)
    (h : a.take j = b.take j) : j ≤ commonPrefixLength a b := by
  induction a generalizing b j with
  | nil =>
    have : j = 0 := by simpa using hj
    rw [this]
    exact Nat.zero_le _
  | cons x rest ih =>
    cases j with
    | zero => exact Nat.zero_le _
    | succ j =>
      cases b with
      | nil => simp at h
      | cons y bs =>
        simp only [List.take_succ_cons, List.cons.injEq] at h
        simp only [commonPrefixLength, h.1, if_true]
        exact Nat.succ_le_succ (ih bs j (by simpa using hj) h.2)

theorem commonPrefixLength_of_append (a rest : List Str) :
    commonPrefixLength a (a ++ rest) = a.length := by
  induction a with
  | nil => cases rest <;> simp [commonPrefixLength]
  | cons x xs ih => simp [commonPrefixLength, ih]

/-- With enough parts of the file left, the loop of `RelPath` never indexes out of
range and counts the leading parts that agree. -/
theorem relPathCut_eq (fileParts : List Str) (directoryParts : List Str) (i cut : Nat)
    (h : i + directoryParts.length ≤ fileParts.length) :
    relPathCut fileParts directoryParts i cut =
      some (cut + commonPrefixLength directoryParts (fileParts.drop i)) := by
  induction directoryParts generalizing i cut with
  | nil => simp [relPathCut, commonPrefixLength]
  | cons d rest ih =>
    have hi : i < fileParts.length := by
      simp only [List.length_cons] at h
      omega
    rw [relPathCut, List.getElem?_eq_getElem hi, List.drop_eq_getElem_cons hi]
    simp only [commonPrefixLength]
    split
    · rw [ih (i + 1) (cut + 1) (by simp only [List.length_cons] at h; omega)]
      congr 1
      omega
    · rfl

theorem RelPath_of_shorter (root path : Path)
    (h : (Split root pathSeparator).length < (Split path pathSeparator).length) :
    RelPath root path = PathRes.ret
      (Join ((Split path pathSeparator).drop
        (commonPrefixLength (Split root pathSeparator) (Split path pathSeparator))) pathSeparator)
      none := by
  unfold RelPath
  simp only [ge_iff_le, Nat.not_le.2 h, if_false]
  rw [relPathCut_eq _ _ 0 0 (by omega)]
  simp

/-- C13: `RelPath` returns an error exactly when the root, split on the path
separator, has at least as many segments as the path; otherwise it returns a
result and no error (and does not panic). `RelPath("/a/b/c", "/a/b")` is an error. -/
theorem C13_relpath_error_iff_root_not_shorter :
    (∀ root path : Path,
      ((∃ rel msg, RelPath root path = PathRes.ret rel (some msg)) ↔
        (Split path pathSeparator).length ≤ (Split root pathSeparator).length) ∧
      ((Split root pathSeparator).length < (Split path pathSeparator).length →
        ∃ rel, RelPath root path = PathRes.ret rel none)) ∧
    RelPath "/a/b/c".toList "/a/b".toList =
      PathRes.ret [] (some "directory cannot be deeper than filePath".toList) := by
  refine ⟨fun root path => ⟨⟨?_, ?_⟩, ?_⟩, by decide⟩
  · rintro ⟨rel, msg, h⟩
    by_contra hlt
    rw [RelPath_of_shorter root path (Nat.not_le.1 hlt)] at h
    simp at h
  · intro hle
    refine ⟨[], "directory cannot be deeper than filePath".toList, ?_⟩
    unfold RelPath
    simp only [ge_iff_le, hle, if_true]
  · intro hlt
    exact ⟨_, RelPath_of_shorter root path hlt⟩

/-- C14: for a root with fewer segments than the path, `RelPath` returns the path's
segments with the first `k` removed and the rest joined by the path separator,
where `k` is the length of the longest common segment-wise prefix of root and
path: the first `k` segments agree and no longer run of leading segments does. -/
theorem C14_relpath_strips_common_segments (root path : Path)
    (h : (Split root pathSeparator).length < (Split path pathSeparator).length) :
    ∃ k : Nat,
      RelPath root path =
        PathRes.ret (Join ((Split path pathSeparator).drop k) pathSeparator) none ∧
      k = commonPrefixLength (Split root pathSeparator) (Split path pathSeparator) ∧
      k ≤ (Split root pathSeparator).length ∧
      (Split root pathSeparator).take k = (Split path pathSeparator).take k ∧
      ∀ j, j ≤ (Split root pathSeparator).length →
        (Split root pathSeparator).take j = (Split path pathSeparator).take j → j ≤ k :=
  ⟨_, RelPath_of_shorter root path h, rfl, commonPrefixLength_le _ _,
    commonPrefixLength_take _ _, fun j hj ht => commonPrefixLength_max _ _ j hj ht⟩

/-- C14 at `RelPath("/a/b", "/a/b/c/d.txt")`, which is `c/d.txt`, and at a root
that is no ancestor of the path. -/
theorem C14_relpath_strips_common_segments_witness :
    RelPath "/a/b".toList "/a/b/c/d.txt".toList = PathRes.ret "c/d.txt".toList none ∧
    RelPath "/a/x".toList "/a/b/c/d.txt".toList = PathRes.ret "b/c/d.txt".toList none ∧
    ∃ k : Nat,
      RelPath "/a/b".toList "/a/b/c/d.txt".toList =
        PathRes.ret (Join ((Split "/a/b/c/d.txt".toList pathSeparator).drop k) pathSeparator)
          none ∧
      k = 3 := by
  refine ⟨by decide, by decide, ?_⟩
  obtain ⟨k, h1, h2, _⟩ :=
    C14_relpath_strips_common_segments "/a/b".toList "/a/b/c/d.txt".toList (by decide)
  exact ⟨k, h1, h2.trans (by decide)⟩

/-- C20: when the root's segments are a proper prefix of the path's segments,
`RelPath` returns a relative path and no error, and the root, the path separator
and the relative path, put together, are the path. -/
theorem C20_relpath_rejoins_to_path (root path : Path)
    (hpre : Split root pathSeparator <+: Split path pathSeparator)
    (hproper : Split root pathSeparator ≠ Split path pathSeparator) :
    ∃ rel : Str,
      RelPath root path = PathRes.ret rel none ∧ root ++ pathSeparator ++ rel = path := by
  obtain ⟨rest, hrest⟩ := hpre
  have hne : rest ≠ [] := by
    intro h0
    rw [h0, List.append_nil] at hrest
    exact hproper hrest
  have hlen : (Split root pathSeparator).length < (Split path pathSeparator).length := by
    rw [← hrest, List.length_append]
    have : 0 < rest.length := List.length_pos.2 hne
    omega
  refine ⟨_, RelPath_of_shorter root path hlen, ?_⟩
  have hroot : Join (Split root pathSeparator) pathSeparator = root := Join_Split_single '/' root
  have hpath : Join (Split path pathSeparator) pathSeparator = path := Join_Split_single '/' path
  have hcut : commonPrefixLength (Split root pathSeparator) (Split path pathSeparator) =
      (Split root pathSeparator).length := by
    rw [← hrest]
    exact commonPrefixLength_of_append _ _
  rw [hcut]
  conv_rhs => rw [← hpath, ← hrest, Join_append _ _ _ (Split_ne_nil root pathSeparator (by decide)) hne]
  rw [← hrest, List.drop_left, hroot]

/-- C20 at root `/a/b` and path `/a/b/c/d.txt`. -/
theorem C20_relpath_rejoins_to_path_witness :
    ∃ rel : Str,
      RelPath "/a/b".toList "/a/b/c/d.txt".toList = PathRes.ret rel none ∧
      "/a/b".toList ++ pathSeparator ++ rel = "/a/b/c/d.txt".toList :=
  C20_relpath_rejoins_to_path "/a/b".toList "/a/b/c/d.txt".toList (by decide) (by decide)

/-! ## `Equal`, reading back, and the bytes a merge writes -/

theorem equalLoop_eq (fileBLines : List Str) (fileALines : List Str) (i : Nat)
    (h : i + fileALines.length = fileBLines.length) :
    equalLoop fileBLines fileALines i = some (decide (fileALines = fileBLines.drop i)) := by
  induction fileALines generalizing i with
  | nil =>
    have : fileBLines.drop i = [] := List.drop_eq_nil_of_le (by simpa using h.ge)
    simp [equalLoop, this]
  | cons a rest ih =>
    have hi : i < fileBLines.length := by
      simp only [List.length_cons] at h
      omega
    have hd : fileBLines.drop i = fileBLines[i] :: fileBLines.drop (i + 1) :=
      List.drop_eq_getElem_cons hi
    rw [equalLoop, List.getElem?_eq_getElem hi]
    simp only
    by_cases hab : a = fileBLines[i]
    · rw [if_neg (not_not.2 hab), ih (i + 1) (by simp only [List.length_cons] at h; omega), hd]
      simp only [hab, List.cons.injEq, true_and]
    · rw [if_pos hab, hd]
      simp only [List.cons.injEq, hab, false_and, decide_False]

/-- `Equal` returns whether the two line sequences it read are the same, and no
error. -/
theorem Equal_eq (fileA fileB : Path) (fs : FS) :
    Equal fileA fileB fs =
      (decide ((OpenLines fs fileA).1 = (OpenLines fs fileB).1), Res.nil) := by
  have h1 := OpenLines_snd fs fileA
  have h2 := OpenLines_snd fs fileB
  unfold Equal
  revert h1 h2
  cases OpenLines fs fileA with
  | mk a ra =>
    cases OpenLines fs fileB with
    | mk b rb =>
      intro h1 h2
      simp only at h1 h2
      subst h1 h2
      simp only
      by_cases hlen : a.length = b.length
      · rw [if_neg (not_not.2 hlen), equalLoop_eq b a 0 (by omega)]
        simp
      · rw [if_pos hlen]
        have : a ≠ b := fun h => hlen (by rw [h])
        simp [this]

theorem readFile_ok_facts (fs : FS) (p : Path) (b : Str) (h : readFile fs p = Except.ok b) :
    p ≠ [] ∧ fs.fault Op.read p = false ∧ ∃ m, fs.node p = some (Node.file ⟨b, m⟩) := by
  unfold readFile at h
  by_cases hp : p = []
  · simp [hp] at h
  · simp only [hp, if_false] at h
    cases hn : fs.node p with
    | none => simp [hn] at h
    | some n =>
      cases n with
      | dir m => simp [hn] at h
      | file f =>
        simp only [hn] at h
        cases hf : fs.fault Op.read p with
        | true => simp [hf] at h
        | false =>
          simp only [hf, Bool.false_eq_true, if_false, Except.ok.injEq] at h
          exact ⟨hp, rfl, f.mode, by rw [← h]⟩

theorem newline_append_Join (b : List Str) (hb : b ≠ []) :
    newline ++ Join b newline = appendedBytes b := by
  induction b with
  | nil => exact absurd rfl hb
  | cons x rest ih =>
    cases rest with
    | nil => simp [Join, appendedBytes]
    | cons y rest =>
      rw [Join_cons_cons, appendedBytes, ← ih (by simp)]
      simp only [List.append_assoc]

/-- The bytes `Overwrite` makes of a file's lines followed by further lines: the
file's bytes, then a line terminator and the line for each further line. -/
theorem Join_Split_append (content : Str) (appended : List Str) :
    Join (Split content newline ++ appended) newline = content ++ appendedBytes appended := by
  by_cases h : appended = []
  · rw [h, List.append_nil]
    exact (Join_Split_single '\n' content).trans (by simp [appendedBytes])
  · rw [Join_append _ _ _ (Split_ne_nil content newline (by decide)) h, List.append_assoc,
      newline_append_Join _ h]
    exact congrArg (· ++ appendedBytes appended) (Join_Split_single '\n' content)

/-- After a write to a file that could be read: the written bytes are what is
read, or the write was refused and nothing has changed. -/
theorem writeFile_then_read (p : Path) (data b : Str) (perm : Nat) (fs : FS)
    (h : readFile fs p = Except.ok b) :
    ((writeFile p data perm fs).1 = Res.nil ∧
      readFile (writeFile p data perm fs).2 p = Except.ok data) ∨
    ((writeFile p data perm fs).1 ≠ Res.nil ∧ (writeFile p data perm fs).2 = fs) := by
  obtain ⟨hp, hr, _⟩ := readFile_ok_facts fs p b h
  rcases writeFile_cases p perm fs with ⟨e, he⟩ | ⟨m, _, _, hw⟩
  · right
    rw [he]
    exact ⟨by simp, rfl⟩
  · left
    rw [hw]
    refine ⟨rfl, ?_⟩
    simp only
    rw [readFile_set_self fs p hp, hr]
    rfl

/-- C12, the code at a failing input: no file is at `missing.txt`, `Open` returns
the error, and `OpenLines` returns no line and a `nil` error; so it does for every
path whose file cannot be opened or read. -/
theorem C12_openlines_hides_the_open_error :
    Open bareFS "missing.txt".toList = ([], Res.err IOError.notExist) ∧
    OpenLines bareFS "missing.txt".toList = ([], Res.nil) ∧
    (∀ (fs : FS) (filePath : Path) (e : IOError), readFile fs filePath = Except.error e →
      Open fs filePath = ([], Res.err e) ∧ OpenLines fs filePath = ([], Res.nil)) := by
  refine ⟨by decide, by decide, fun fs filePath e h => ?_⟩
  simp [Open, OpenLines, h]

/-- C15: for two files that can be read, `Equal` returns no error, and returns
true exactly when their line sequences have the same length and the same line at
every index. -/
theorem C15_equal_compares_line_by_line (fileA fileB : Path) (fs : FS) (a b : Str)
    (ha : readFile fs fileA = Except.ok a) (hb : readFile fs fileB = Except.ok b) :
    (Equal fileA fileB fs).2 = Res.nil ∧
    ((Equal fileA fileB fs).1 = true ↔
      (Split a newline).length = (Split b newline).length ∧
      ∀ (i : Nat) (h1 : i < (Split a newline).length) (h2 : i < (Split b newline).length),
        (Split a newline)[i] = (Split b newline)[i]) := by
  rw [Equal_eq, OpenLines_of_ok fs fileA a ha, OpenLines_of_ok fs fileB b hb]
  refine ⟨rfl, ?_⟩
  simp only [decide_eq_true_eq]
  constructor
  · intro h
    rw [h]
    exact ⟨rfl, fun _ _ _ => rfl⟩
  · rintro ⟨hlen, hget⟩
    exact List.ext_getElem hlen hget

/-- C15 at two templates of `demoFS` with different lines, and at a file and
itself. -/
theorem C15_equal_compares_line_by_line_witness :
    Equal "tpl/notes.txt".toList "notes.txt".toList demoFS = (false, Res.nil) ∧
    Equal "notes.txt".toList "notes.txt".toList demoFS = (true, Res.nil) ∧
    (Equal "tpl/notes.txt".toList "notes.txt".toList demoFS).2 = Res.nil :=
  ⟨by decide, by decide,
    (C15_equal_compares_line_by_line "tpl/notes.txt".toList "notes.txt".toList demoFS
      "y\nz".toList "x\ny".toList rfl rfl).1⟩

/-- C16: a non-empty line sequence whose lines hold no line terminator, written
with `Overwrite` by a write that goes through to a file that may be read, is the
sequence `OpenLines` then returns, with no error. -/
theorem C16_overwrite_then_openlines (lines : List Str) (filePath : Path) (fs fs1 : FS)
    (hne : lines ≠ []) (hnl : ∀ l ∈ lines, '\n' ∉ l)
    (hwrite : Overwrite lines filePath fs = (Res.nil, fs1))
    (hread : fs.fault Op.read filePath = false) :
    OpenLines fs1 filePath = (lines, Res.nil) := by
  unfold Overwrite at hwrite
  rcases writeFile_cases filePath 420 fs with ⟨e, he⟩ | ⟨m, hp, _, hw⟩
  · rw [he] at hwrite
    simp at hwrite
  · rw [hw] at hwrite
    have hfs : fs1 = fs.set filePath (Node.file ⟨Join lines newline, m⟩) :=
      (Prod.mk.inj hwrite).2.symm
    rw [OpenLines_eq, hfs, OpenLines_set_self fs filePath hp _ m hread,
      Split_Join_newline lines hne hnl]

/-- C16 at the lines `x`, `y` written to a new file of `bareFS`. -/
theorem C16_overwrite_then_openlines_witness :
    OpenLines (Overwrite ["x".toList, "y".toList] "notes.txt".toList bareFS).2
      "notes.txt".toList = (["x".toList, "y".toList], Res.nil) :=
  C16_overwrite_then_openlines ["x".toList, "y".toList] "notes.txt".toList bareFS _
    (by decide) (by decide) rfl rfl

/-- C17, the code at a failing input: with the empty separator, a source line `c`
and a destination whose second line is empty, the guard of the inner loop does not
pass over the empty line, its split has no first element, and the merge panics
(in `bareFS` the property file ends in a line terminator, so its last line is
empty). With a separator that is not empty the loop never panics. -/
theorem C17_keyval_panics_for_empty_separator :
    kvCompared [] [] = true ∧
    (Split [] [])[0]? = none ∧
    mergeKeyValLines [] ["c".toList] ["a=1".toList, []] = none ∧
    OpenLines bareFS "app.properties".toList = (["a=1".toList, []], Res.nil) ∧
    (MergeKeyValFile "tpl/app.properties".toList "app.properties".toList [] bareFS).1 =
      Res.panic ∧
    (∀ separator : Str, separator ≠ [] → ∀ fromLines toLines : List Str,
      ∃ merged, mergeKeyValLines separator fromLines toLines = some merged) := by
  refine ⟨by decide, by decide, by decide, by decide, by decide, ?_⟩
  intro separator h fromLines toLines
  exact ⟨_, mergeKeyValLines_eq separator h fromLines toLines⟩

/-- C18: for a destination that can be read, the bytes `MergeTextFiles` and
`MergeKeyValFile` (any separator that is not empty) write to it are its original
bytes followed by a line terminator and the line for each appended line, in
order; nothing but the original bytes when no line is appended. After the call
these are the destination's bytes, unless the write was refused and nothing has
changed. With the empty separator `MergeKeyValFile` either panics and writes
nothing, or writes bytes of the same form. -/
theorem C18_merge_writes_original_bytes_first (fromFile toFile : Path) (fs : FS)
    (content : Str) (hdst : readFile fs toFile = Except.ok content) :
    (∃ appended : List Str,
      mergeTextLines (OpenLines fs fromFile).1 (OpenLines fs toFile).1 =
        Split content newline ++ appended ∧
      MergeTextFiles fromFile toFile fs =
        writeFile toFile (content ++ appendedBytes appended) 420 fs ∧
      (readFile (MergeTextFiles fromFile toFile fs).2 toFile =
          Except.ok (content ++ appendedBytes appended) ∨
        (MergeTextFiles fromFile toFile fs).2 = fs)) ∧
    (∀ separator : Str, separator ≠ [] → ∃ appended : List Str,
      mergeKeyValLines separator (OpenLines fs fromFile).1 (OpenLines fs toFile).1 =
        some (Split content newline ++ appended) ∧
      MergeKeyValFile fromFile toFile separator fs =
        writeFile toFile (content ++ appendedBytes appended) 420 fs ∧
      (readFile (MergeKeyValFile fromFile toFile separator fs).2 toFile =
          Except.ok (content ++ appendedBytes appended) ∨
        (MergeKeyValFile fromFile toFile separator fs).2 = fs)) ∧
    (mergeKeyValLines [] (OpenLines fs fromFile).1 (OpenLines fs toFile).1 = none →
      MergeKeyValFile fromFile toFile [] fs = (Res.panic, fs)) ∧
    (∀ merged, mergeKeyValLines [] (OpenLines fs fromFile).1 (OpenLines fs toFile).1 =
        some merged →
      ∃ appended : List Str, merged = Split content newline ++ appended ∧
        MergeKeyValFile fromFile toFile [] fs =
          writeFile toFile (content ++ appendedBytes appended) 420 fs) ∧
    content ++ appendedBytes [] = content := by
  have hlines := OpenLines_of_ok fs toFile content hdst
  refine ⟨⟨textRule (OpenLines fs fromFile).1 (Split content newline), ?_, ?_, ?_⟩,
    fun separator hsep =>
      ⟨(OpenLines fs fromFile).1.filter (kvQueued separator (Split content newline)),
        ?_, ?_, ?_⟩, ?_, ?_, by simp [appendedBytes]⟩
  · rw [hlines]
    rfl
  · rw [MergeTextFiles_eq, mergeWith, Overwrite, hlines, Join_Split_append]
  · have hw : MergeTextFiles fromFile toFile fs = writeFile toFile (content ++ appendedBytes
        (textRule (OpenLines fs fromFile).1 (Split content newline))) 420 fs := by
      rw [MergeTextFiles_eq, mergeWith, Overwrite, hlines, Join_Split_append]
    rw [hw]
    rcases writeFile_then_read toFile _ content 420 fs hdst with h | h
    · exact Or.inl h.2
    · exact Or.inr h.2
  · rw [hlines]
    exact mergeKeyValLines_eq separator hsep _ _
  · rw [MergeKeyValFile_eq, kvNewLines_eq separator hsep]
    simp only
    rw [mergeWith, Overwrite, hlines, kvRule, kvNewLines_eq separator hsep]
    simp only [Option.getD_some, List.nil_append]
    rw [Join_Split_append]
  · have hw : MergeKeyValFile fromFile toFile separator fs = writeFile toFile (content ++
        appendedBytes ((OpenLines fs fromFile).1.filter
          (kvQueued separator (Split content newline)))) 420 fs := by
      rw [MergeKeyValFile_eq, kvNewLines_eq separator hsep]
      simp only
      rw [mergeWith, Overwrite, hlines, kvRule, kvNewLines_eq separator hsep]
      simp only [Option.getD_some, List.nil_append]
      rw [Join_Split_append]
    rw [hw]
    rcases writeFile_then_read toFile _ content 420 fs hdst with h | h
    · exact Or.inl h.2
    · exact Or.inr h.2
  · intro h
    unfold MergeKeyValFile
    rw [OpenLines_eq fs fromFile, OpenLines_eq fs toFile]
    simp only [h]
  · intro merged h
    have hk : ∃ out, kvNewLines [] (OpenLines fs toFile).1 (OpenLines fs fromFile).1 [] =
        some out ∧ merged = (OpenLines fs toFile).1 ++ out := by
      unfold mergeKeyValLines at h
      cases hk : kvNewLines [] (OpenLines fs toFile).1 (OpenLines fs fromFile).1 [] with
      | none => simp [hk] at h
      | some out =>
        simp only [hk, Option.some.injEq] at h
        exact ⟨out, rfl, h.symm⟩
    obtain ⟨out, hout, hm⟩ := hk
    refine ⟨out, by rw [hm, hlines], ?_⟩
    unfold MergeKeyValFile
    rw [OpenLines_eq fs fromFile, OpenLines_eq fs toFile]
    simp only [h]
    rw [Overwrite, hm, hlines, Join_Split_append]

/-- C18 at the property file of `bareFS`, which ends in a line terminator: the
bytes `a=1`, terminator become `a=1`, terminator, terminator, `c=3`. -/
theorem C18_merge_writes_original_bytes_first_witness :
    readFile (MergeKeyValFile "tpl/app.properties".toList "app.properties".toList
      "=".toList bareFS).2 "app.properties".toList = Except.ok "a=1\n\nc=3".toList ∧
    ∃ appended : List Str,
      MergeTextFiles "tpl/app.properties".toList "app.properties".toList bareFS =
        writeFile "app.properties".toList ("a=1\n".toList ++ appendedBytes appended) 420
          bareFS := by
  refine ⟨rfl, ?_⟩
  obtain ⟨⟨appended, _, h, _⟩, _⟩ := C18_merge_writes_original_bytes_first
    "tpl/app.properties".toList "app.properties".toList bareFS "a=1\n".toList rfl
  exact ⟨appended, h⟩

/-! ## Key-value lines for any separator: the code and the specification -/

theorem Contains_iff_infix (s substr : Str) : Contains s substr = true ↔ substr <:+: s := by
  induction s with
  | nil => simp [Contains]
  | cons c s ih =>
    rw [Contains, Bool.or_eq_true, ih, List.infix_cons_iff, List.isPrefixOf_iff_prefix]

theorem splitAux_head (sep : Str) (cur s : Str) :
    (splitAux sep 0 cur s)[0]? = some (cur.reverse ++ specKeyBefore sep s) := by
  induction s generalizing cur with
  | nil => simp [splitAux, specKeyBefore]
  | cons c s ih =>
    rw [splitAux, specKeyBefore]
    split
    · simp
    · rw [ih]
      simp

/-- The key the code takes is the text before the first occurrence of the
separator. -/
theorem keyOf_eq_specKeyBefore (separator line : Str) (h : separator ≠ []) :
    keyOf separator line = specKeyBefore separator line := by
  unfold keyOf Split
  rw [if_neg h, splitAux_head]
  simp

/-- The text before the first occurrence is followed by the separator. -/
theorem specKeyBefore_append (separator line : Str) (h : separator <:+: line) :
    ∃ rest, line = specKeyBefore separator line ++ separator ++ rest := by
  induction line with
  | nil =>
    have : separator = [] := List.infix_nil.1 h
    exact ⟨[], by simp [specKeyBefore, this]⟩
  | cons c s ih =>
    rw [specKeyBefore]
    split
    · next hp =>
      obtain ⟨rest, hrest⟩ := List.isPrefixOf_iff_prefix.1 hp
      exact ⟨rest, by simp [hrest]⟩
    · next hp =>
      rcases List.infix_cons_iff.1 h with h1 | h1
      · exact absurd (List.isPrefixOf_iff_prefix.2 h1) hp
      · obtain ⟨rest, hrest⟩ := ih h1
        exact ⟨rest, by simp only [List.cons_append, List.cons.injEq, true_and]; simpa using hrest⟩

/-- No occurrence of the separator begins before the key ends. -/
theorem specKeyBefore_least (separator line before rest : Str)
    (h : line = before ++ separator ++ rest) : specKeyBefore separator line <+: before := by
  induction line generalizing before with
  | nil => simp [specKeyBefore]
  | cons c s ih =>
    rw [specKeyBefore]
    split
    · exact List.nil_prefix
    · next hp =>
      cases before with
      | nil =>
        exact absurd (List.isPrefixOf_iff_prefix.2 ⟨rest, by simpa using h.symm⟩) hp
      | cons d before =>
        simp only [List.cons_append, List.cons.injEq] at h
        rw [h.1, List.cons_prefix_cons]
        exact ⟨rfl, ih before (by simpa using h.2)⟩

theorem kvEligible_eq_spec (separator line : Str) :
    kvEligible separator line = specIsKeyValFor separator line := by
  unfold kvEligible specIsKeyValFor
  rw [Bool.eq_iff_iff]
  simp only [Bool.not_eq_true', Bool.or_eq_false_iff, beq_eq_false_iff_ne, ne_eq,
    Bool.not_eq_false', Contains_iff_infix, decide_eq_true_eq]

/-- What the loop of `MergeKeyValFile` queues is a key-value line whose key no
non-empty destination line has as the text before its first separator. -/
theorem kvQueued_spec (separator : Str) (h : separator ≠ []) (toLines : List Str) (line : Str)
    (hq : kvQueued separator toLines line = true) :
    specIsKeyValFor separator line = true ∧
      ∀ t ∈ toLines, t ≠ [] → specKeyBefore separator line ≠ specKeyBefore separator t := by
  unfold kvQueued at hq
  rw [Bool.and_eq_true, kvEligible_eq_spec, Bool.not_eq_true', List.any_eq_false] at hq
  refine ⟨hq.1, fun t ht hne hkey => hq.2 t ht ?_⟩
  have hc : kvCompared separator t = true := by
    unfold kvCompared
    cases t with
    | nil => exact absurd rfl hne
    | cons c l => rfl
  rw [hc, keyOf_eq_specKeyBefore _ _ h, keyOf_eq_specKeyBefore _ _ h]
  simpa using hkey

theorem specKeysFor_append (separator : Str) (a b : List Str) :
    specKeysFor separator (a ++ b) = specKeysFor separator a ++ specKeysFor separator b := by
  simp [specKeysFor]

/-- C19: for a separator that is not empty, when no two key-value lines (non-empty
lines in which the separator occurs) of the source share a key (the text before
the first separator) and no two key-value lines of the destination share a key,
`MergeKeyValFile` does not panic and no two key-value lines of the merged
destination share a key. -/
theorem C19_keyval_distinct_keys_kept (separator : Str) (fromLines toLines : List Str)
    (hsep : separator ≠ [])
    (hfrom : (specKeysFor separator fromLines).Nodup)
    (hto : (specKeysFor separator toLines).Nodup) :
    ∃ merged : List Str,
      mergeKeyValLines separator fromLines toLines = some merged ∧
      (specKeysFor separator merged).Nodup := by
  refine ⟨toLines ++ fromLines.filter (kvQueued separator toLines),
    mergeKeyValLines_eq separator hsep fromLines toLines, ?_⟩
  rw [specKeysFor_append, List.nodup_append]
  refine ⟨hto, ?_, ?_⟩
  · exact List.Nodup.sublist
      (((List.filter_sublist fromLines).filter (specIsKeyValFor separator)).map
        (specKeyBefore separator)) hfrom
  · intro k hk1 hk2
    simp only [specKeysFor, List.mem_map, List.mem_filter] at hk1 hk2
    obtain ⟨t, ⟨ht, htkv⟩, htk⟩ := hk1
    obtain ⟨a, ⟨⟨_, haq⟩, _⟩, hak⟩ := hk2
    have hq := kvQueued_spec separator hsep toLines a haq
    have hne : t ≠ [] := by
      simp only [specIsKeyValFor, decide_eq_true_eq] at htkv
      exact htkv.1
    exact hq.2 t ht hne (hak.trans htk.symm)

/-- C19 at the separator `: `, destination `a: 1`, `b: 2` and source `b: 9`,
`c: 3`. -/
theorem C19_keyval_distinct_keys_kept_witness :
    specKeysFor ": ".toList ["b: 9".toList, "c: 3".toList] = ["b".toList, "c".toList] ∧
    mergeKeyValLines ": ".toList ["b: 9".toList, "c: 3".toList]
      ["a: 1".toList, "b: 2".toList] =
        some ["a: 1".toList, "b: 2".toList, "c: 3".toList] ∧
    ∃ merged : List Str,
      mergeKeyValLines ": ".toList ["b: 9".toList, "c: 3".toList]
        ["a: 1".toList, "b: 2".toList] = some merged ∧
      (specKeysFor ": ".toList merged).Nodup :=
  ⟨by decide, by decide,
    C19_keyval_distinct_keys_kept ": ".toList ["b: 9".toList, "c: 3".toList]
      ["a: 1".toList, "b: 2".toList] (by decide) (by decide) (by decide)⟩

/-! ## Copying to a destination that is not there -/

/-- The parent `os.MkdirAll` finds is a shorter, non-empty leading part of the
path. -/
theorem parentOf_facts (path d : Path) (h : parentOf path = some d) :
    d <+: path ∧ d ≠ [] ∧ d.length < path.length := by
  unfold parentOf at h
  simp only at h
  split at h
  · next hlen =>
    simp only [Option.some.injEq] at h
    generalize hr : (path.reverse.dropWhile (fun c => c == '/')).dropWhile (fun c => c != '/')
      = r at h hlen
    have hsuf : r <:+ path.reverse := by
      rw [← hr]
      exact (List.dropWhile_suffix _).trans (List.dropWhile_suffix _)
    have hle : r.length ≤ path.length := by
      have := hsuf.length_le
      simpa using this
    have hdl : d.length = r.length - 1 := by
      rw [← h]
      simp
    refine ⟨?_, ?_, ?_⟩
    · rw [← h]
      have h2 : r.drop 1 <:+ path.reverse := (List.drop_suffix 1 r).trans hsuf
      have h3 := List.reverse_prefix.2 h2
      simpa using h3
    · intro h0
      rw [h0] at hdl
      simp only [List.length_nil] at hdl
      omega
    · omega
  · exact absurd h (by simp)

/-- The parent of a path made of a directory, a separator and a file name. -/
theorem parentOf_dir_name (dir name : Path) (hdir : dir ≠ []) (hname : name ≠ [])
    (hslash : '/' ∉ name) : parentOf (dir ++ '/' :: name) = some dir := by
  have hrev : (dir ++ '/' :: name).reverse = name.reverse ++ '/' :: dir.reverse := by simp
  have hnr : ∀ a ∈ name.reverse, (a != '/') = true := by
    intro a ha
    have : a ∈ name := List.mem_reverse.1 ha
    simpa using fun e : a = '/' => hslash (e ▸ this)
  have h1 : (name.reverse ++ '/' :: dir.reverse).dropWhile (fun c => c == '/') =
      name.reverse ++ '/' :: dir.reverse := by
    cases hn : name.reverse with
    | nil => exact absurd (List.reverse_eq_nil_iff.1 hn) hname
    | cons x xs =>
      have hx : (x != '/') = true := hnr x (by rw [hn]; simp)
      have hx2 : ¬ ((x == '/') = true) := by simpa using hx
      rw [List.cons_append, List.dropWhile_cons]
      simp only [hx2, Bool.false_eq_true, if_false]
  have h2 : (name.reverse ++ '/' :: dir.reverse).dropWhile (fun c => c != '/') =
      '/' :: dir.reverse := by
    rw [List.dropWhile_append_of_pos hnr, List.dropWhile_cons]
    simp
  unfold parentOf
  simp only [hrev, h1, h2, List.length_cons, List.length_reverse]
  have hpos : 0 < dir.length := List.length_pos.2 hdir
  rw [if_pos (by omega)]
  simp

/-- The directory `copyFile` computes for such a path. -/
theorem destinationDir_dir_name (dir name : Path) (hslash : '/' ∉ name) :
    Join (Split (dir ++ '/' :: name) pathSeparator).dropLast pathSeparator = dir := by
  have hsplit : Split (dir ++ '/' :: name) pathSeparator = Split dir pathSeparator ++ [name] := by
    have hj : Join (Split dir pathSeparator ++ [name]) pathSeparator = dir ++ '/' :: name := by
      rw [Join_append _ _ _ (Split_ne_nil dir pathSeparator (by decide)) (by simp)]
      have : Join (Split dir pathSeparator) pathSeparator = dir := Join_Split_single '/' dir
      rw [this]
      simp [Join, pathSeparator]
    rw [← hj]
    apply Split_Join_single '/'
    · simp
    · intro l hl
      rcases List.mem_append.1 hl with h | h
      · exact Split_single_not_mem '/' dir l h
      · rw [List.mem_singleton.1 h]
        exact hslash
  rw [hsplit, List.dropLast_concat]
  exact Join_Split_single '/' dir

theorem Stat_of_none (fs : FS) (p : Path) (hf : fs.fault Op.stat p = false)
    (hn : fs.node p = none) : Stat fs p = (none, Res.err IOError.notExist) := by
  unfold Stat
  by_cases hp : p = []
  · simp [hp]
  · simp [hp, hf, hn]

theorem Stat_of_some (fs : FS) (p : Path) (hp : p ≠ []) (hf : fs.fault Op.stat p = false)
    (n : Node) (hn : fs.node p = some n) : Stat fs p = (some n, Res.nil) := by
  simp [Stat, hp, hf, hn]

theorem Mkdir_ok (path : Path) (perm : Nat) (fs : FS) (hne : path ≠ [])
    (hnode : fs.node path = none) (hf : fs.fault Op.mkdir path = false)
    (hpar : parentPresent fs path = true) :
    Mkdir path perm fs = (Res.nil, fs.set path (Node.dir (applyUmask perm fs.umask))) := by
  simp [Mkdir, hne, hnode, hf, hpar]

theorem FS.set_node_ne (fs : FS) (p q : Path) (n : Node) (h : q ≠ p) :
    (fs.set p n).node q = fs.node q := by
  simp [FS.set, h]

theorem FS.set_node_self (fs : FS) (p : Path) (n : Node) : (fs.set p n).node p = some n := by
  simp [FS.set]

/-- With nothing refused and no regular file in the way, `os.MkdirAll` goes through
within its fuel: the path is a directory afterwards, every entry that was there is
kept, and only leading parts of the path are touched. -/
theorem mkdirAllAux_ok (perm : Nat) : ∀ (fuel : Nat) (path : Path) (fs : FS),
    path.length < fuel → path ≠ [] →
    (∀ op p, fs.fault op p = false) →
    (∀ p, p <+: path → ∀ f, fs.node p ≠ some (Node.file f)) →
    ∃ fs1, mkdirAllAux fuel path perm fs = (Res.nil, fs1) ∧
      (∃ m, fs1.node path = some (Node.dir m)) ∧
      fs1.fault = fs.fault ∧ fs1.umask = fs.umask ∧
      (∀ q, ¬ q <+: path → fs1.node q = fs.node q) ∧
      (∀ q n, fs.node q = some n → fs1.node q = some n) := by
  intro fuel
  induction fuel with
  | zero =>
    intro path fs hlen
    exact absurd hlen (Nat.not_lt_zero _)
  | succ fuel ih =>
    intro path fs hlen hne hfault hnofile
    cases hn : fs.node path with
    | some n =>
      cases n with
      | file f => exact absurd hn (hnofile path (List.prefix_refl _) f)
      | dir m =>
        refine ⟨fs, ?_, ⟨m, hn⟩, rfl, rfl, fun _ _ => rfl, fun _ _ h => h⟩
        rw [mkdirAllAux, Stat_of_some fs path hne (hfault _ _) _ hn]
    | none =>
      have hstat := Stat_of_none fs path (hfault _ _) hn
      cases hpar : parentOf path with
      | none =>
        have hpp : parentPresent fs path = true := by simp [parentPresent, hpar]
        refine ⟨fs.set path (Node.dir (applyUmask perm fs.umask)), ?_,
          ⟨_, FS.set_node_self _ _ _⟩, rfl, rfl, ?_, ?_⟩
        · rw [mkdirAllAux, hstat]
          simp only [hpar, Mkdir_ok path perm fs hne hn (hfault _ _) hpp]
        · intro q hq
          exact FS.set_node_ne fs path q _ (fun e => hq (e ▸ List.prefix_refl _))
        · intro q n hq
          rw [FS.set_node_ne fs path q _ (fun e => by rw [e, hn] at hq; simp at hq)]
          exact hq
      | some d =>
        obtain ⟨hdpre, hdne, hdlen⟩ := parentOf_facts path d hpar
        obtain ⟨fs1, h1, ⟨m, hm⟩, hf1, hu1, hout1, hkeep1⟩ :=
          ih d fs (by omega) hdne hfault (fun p hp => hnofile p (hp.trans hdpre))
        have hnotpre : ¬ path <+: d := fun h => by
          have := h.length_le
          omega
        have hn1 : fs1.node path = none := by rw [hout1 path hnotpre, hn]
        have hpp : parentPresent fs1 path = true := by simp [parentPresent, hpar, hm]
        have hmk := Mkdir_ok path perm fs1 hne hn1 (by rw [hf1]; exact hfault _ _) hpp
        refine ⟨fs1.set path (Node.dir (applyUmask perm fs1.umask)), ?_,
          ⟨_, FS.set_node_self _ _ _⟩, hf1, hu1, ?_, ?_⟩
        · rw [mkdirAllAux, hstat]
          simp only [hpar, h1, hmk]
        · intro q hq
          rw [FS.set_node_ne fs1 path q _ (fun e => hq (e ▸ List.prefix_refl _))]
          exact hout1 q (fun h => hq (h.trans hdpre))
        · intro q n hq
          rw [FS.set_node_ne fs1 path q _ (fun e => by rw [e, hn] at hq; simp at hq)]
          exact hkeep1 q n hq

/-- The directory step of `copyFile`: with nothing refused and no regular file in
the way, the directory is there afterwards, with every entry that was there, and
nothing longer than the directory's path has been touched. -/
theorem copyFile_directory_step (dir : Path) (fs : FS) (hdir : dir ≠ [])
    (hfault : ∀ op p, fs.fault op p = false)
    (hnofile : ∀ p, p <+: dir → ∀ f, fs.node p ≠ some (Node.file f)) :
    ∃ fs1, (if !Exists fs dir then CreateDirectory dir fs else (Res.nil, fs)) = (Res.nil, fs1) ∧
      (∃ m, fs1.node dir = some (Node.dir m)) ∧
      fs1.fault = fs.fault ∧ fs1.umask = fs.umask ∧
      (∀ q, ¬ q <+: dir → fs1.node q = fs.node q) ∧
      (∀ q n, fs.node q = some n → fs1.node q = some n) := by
  cases hn : fs.node dir with
  | some n =>
    cases n with
    | file f => exact absurd hn (hnofile dir (List.prefix_refl _) f)
    | dir m =>
      have hex : Exists fs dir = true := by
        simp [Exists, Stat_of_some fs dir hdir (hfault _ _) _ hn]
      exact ⟨fs, by simp [hex], ⟨m, hn⟩, rfl, rfl, fun _ _ => rfl, fun _ _ h => h⟩
  | none =>
    have hstat := Stat_of_none fs dir (hfault _ _) hn
    have hex : Exists fs dir = false := by simp [Exists, hstat]
    obtain ⟨fs1, h1, hm, hf1, hu1, hout1, hkeep1⟩ :=
      mkdirAllAux_ok 493 (dir.length + 1) dir fs (Nat.lt_succ_self _) hdir hfault hnofile
    refine ⟨fs1, ?_, hm, hf1, hu1, hout1, hkeep1⟩
    simp only [hex, Bool.not_false, if_true, CreateDirectory, hstat, MkdirAll, h1]

/-- The umask takes nothing from permission bits it shares no bit with. -/
theorem applyUmask_of_disjoint (mode umask : Nat) (hmode : mode < 512)
    (hdisj : Nat.land mode umask = 0) : applyUmask mode umask = mode := by
  unfold applyUmask
  rw [Nat.mod_eq_of_lt hmode]
  apply Nat.eq_of_testBit_eq
  intro i
  have h1 : (mode &&& umask).testBit i = false := by
    have : mode &&& umask = 0 := hdisj
    rw [this]
    simp
  rw [Nat.testBit_land] at h1
  show (mode &&& (511 ^^^ (umask % 512))).testBit i = mode.testBit i
  rw [Nat.testBit_land, Nat.testBit_xor]
  have h511 : (511 : Nat).testBit i = decide (i < 9) := Nat.testBit_two_pow_sub_one 9 i
  have hmod : (umask % 512).testBit i = (decide (i < 9) && umask.testBit i) :=
    Nat.testBit_mod_two_pow umask 9 i
  rw [h511, hmod]
  by_cases hi : i < 9
  · cases hm : mode.testBit i <;> cases hu : umask.testBit i <;> simp_all
  · have hlt : mode < 2 ^ i := by
      have : (2 : Nat) ^ 9 ≤ 2 ^ i := Nat.pow_le_pow_right (by decide) (Nat.le_of_not_lt hi)
      omega
    have hm : mode.testBit i = false := Nat.testBit_lt_two_pow hlt
    simp [hm]

/-- C11, as stated, fails: a template of mode `0777` copied under the umask `022`
gives a destination of mode `0755`; a destination path without a directory part
makes `copyFile` create the directory of the empty name, which fails, and nothing
is copied; and a regular file where the destination's directory should be makes
the copy fail. -/
theorem C11_copy_mode_and_success_counterexample :
    (readFile bareFS "tpl/run.sh".toList = Except.ok "exit 0".toList ∧
      bareFS.node "tpl/run.sh".toList = some (Node.file ⟨"exit 0".toList, 511⟩) ∧
      bareFS.node "conf/run.sh".toList = none ∧
      (CopyOrMerge "tpl/run.sh".toList "conf/run.sh".toList bareFS).1 = Res.nil ∧
      (CopyOrMerge "tpl/run.sh".toList "conf/run.sh".toList bareFS).2.node
        "conf/run.sh".toList = some (Node.file ⟨"exit 0".toList, 493⟩)) ∧
    (readFile bareFS "tpl/config.yml".toList = Except.ok "port: 80".toList ∧
      bareFS.node "config.yml".toList = none ∧
      (CopyOrMerge "tpl/config.yml".toList "config.yml".toList bareFS).1 =
        Res.err IOError.notExist ∧
      (CopyOrMerge "tpl/config.yml".toList "config.yml".toList bareFS).2.node
        "config.yml".toList = none) ∧
    (bareFS.node "app.properties/config.yml".toList = none ∧
      (CopyOrMerge "tpl/config.yml".toList "app.properties/config.yml".toList bareFS).1 ≠
        Res.nil ∧
      (CopyOrMerge "tpl/config.yml".toList "app.properties/config.yml".toList bareFS).2.node
        "app.properties/config.yml".toList = none) :=
  ⟨⟨rfl, by decide, by decide, by decide, by decide⟩,
    ⟨rfl, by decide, by decide, by decide⟩, by decide⟩

/-- C11, amended: for a source file that can be read and a destination path made
of a directory, a path separator and a file name, at which nothing is, when the
environment refuses no call and no leading part of the directory's path is a
regular file, `CopyOrMerge` returns no error and creates the destination with
the source's bytes and with the source's mode less the bits of the umask; that is
the source's mode when it is made of permission bits of which the umask holds
none. -/
theorem C11_copy_creates_destination (sourceFile dir name : Path) (fs : FS)
    (input : Str) (mode : Nat)
    (hsource : fs.node sourceFile = some (Node.file ⟨input, mode⟩))
    (hsourcene : sourceFile ≠ [])
    (hdir : dir ≠ []) (hname : name ≠ []) (hslash : '/' ∉ name)
    (habsent : fs.node (dir ++ '/' :: name) = none)
    (hfault : ∀ op p, fs.fault op p = false)
    (hnofile : ∀ p, p <+: dir → ∀ f, fs.node p ≠ some (Node.file f)) :
    ∃ fs1 : FS,
      CopyOrMerge sourceFile (dir ++ '/' :: name) fs = (Res.nil, fs1) ∧
      fs1.node (dir ++ '/' :: name) =
        some (Node.file ⟨input, applyUmask mode fs.umask⟩) ∧
      readFile fs1 (dir ++ '/' :: name) = Except.ok input ∧
      (mode < 512 → Nat.land mode fs.umask = 0 →
        fs1.node (dir ++ '/' :: name) = some (Node.file ⟨input, mode⟩)) := by
  have hdstne : dir ++ '/' :: name ≠ [] := by simp
  have hex : Exists fs (dir ++ '/' :: name) = false := by
    simp [Exists, Stat_of_none fs _ (hfault _ _) habsent]
  have hread : readFile fs sourceFile = Except.ok input := by
    simp [readFile, hsourcene, hsource, hfault]
  obtain ⟨fs1, hstep, ⟨m, hm⟩, hf1, hu1, hout1, hkeep1⟩ :=
    copyFile_directory_step dir fs hdir hfault hnofile
  have hnotpre : ¬ dir ++ '/' :: name <+: dir := fun h => by
    have := h.length_le
    simp only [List.length_append, List.length_cons] at this
    omega
  have hdst1 : fs1.node (dir ++ '/' :: name) = none := by rw [hout1 _ hnotpre, habsent]
  have hstat1 : Stat fs1 sourceFile = (some (Node.file ⟨input, mode⟩), Res.nil) :=
    Stat_of_some fs1 sourceFile hsourcene (by rw [hf1]; exact hfault _ _) _
      (hkeep1 _ _ hsource)
  have hpp : parentPresent fs1 (dir ++ '/' :: name) = true := by
    simp [parentPresent, parentOf_dir_name dir name hdir hname hslash, hm]
  have hwrite : writeFile (dir ++ '/' :: name) input mode fs1 =
      (Res.nil, fs1.set (dir ++ '/' :: name) (Node.file ⟨input, applyUmask mode fs1.umask⟩)) := by
    have hfw : fs1.fault Op.write (dir ++ '/' :: name) = false := by
      rw [hf1]
      exact hfault _ _
    simp [writeFile, hdst1, hfw, hpp]
  have hcopy : CopyOrMerge sourceFile (dir ++ '/' :: name) fs =
      (Res.nil, fs1.set (dir ++ '/' :: name) (Node.file ⟨input, applyUmask mode fs.umask⟩)) := by
    unfold CopyOrMerge
    rw [hex]
    simp only [Bool.false_eq_true, if_false, copyFile, hread,
      destinationDir_dir_name dir name hslash, hstep, hstat1, Node.mode, hwrite, hu1]
  have hnode : (fs1.set (dir ++ '/' :: name)
      (Node.file ⟨input, applyUmask mode fs.umask⟩)).node (dir ++ '/' :: name) =
        some (Node.file ⟨input, applyUmask mode fs.umask⟩) := FS.set_node_self _ _ _
  refine ⟨_, hcopy, hnode, ?_, ?_⟩
  · rw [readFile_set_self fs1 _ hdstne, hf1, hfault]
    rfl
  · intro hlt hdisj
    rw [hnode, applyUmask_of_disjoint mode fs.umask hlt hdisj]

/-- C11, amended, at `bareFS`: the template `tpl/config.yml` of mode `0644` copied
to `conf/sub/config.yml`, neither directory being there, under the umask `022`. -/
theorem C11_copy_creates_destination_witness :
    ∃ fs1 : FS,
      CopyOrMerge "tpl/config.yml".toList ("conf/sub".toList ++ '/' :: "config.yml".toList)
        bareFS = (Res.nil, fs1) ∧
      fs1.node ("conf/sub".toList ++ '/' :: "config.yml".toList) =
        some (Node.file ⟨"port: 80".toList, 420⟩) := by
  have hinits : ∀ p ∈ ("conf/sub".toList).inits, bareFS.node p = none := by decide
  obtain ⟨fs1, h1, _, _, h4⟩ := C11_copy_creates_destination "tpl/config.yml".toList
    "conf/sub".toList "config.yml".toList bareFS "port: 80".toList 420 rfl (by decide)
    (by decide) (by decide) (by decide) rfl (fun _ _ => rfl)
    (fun p hp f h => by
      rw [hinits p ((List.mem_inits _ _).2 hp)] at h
      exact absurd h (by simp))
  exact ⟨fs1, h1, h4 (by decide) (by decide)⟩

end CoPilot
